import Mathlib

/-!
# Minesweeper (board.c / game.c): a shallow embedding and its verification

The C program keeps a fixed 9x9 grid of `Cell`s inside a `Game` record and
mutates it from a per-frame `Game_Update`.  Below, every C function becomes a
pure Lean function on explicit state:

* `Cell board[ROWS][COLS]` is a record holding `Fin ROWS → Fin COLS → Cell`;
* `int` coordinates stay `Int`; `board[r][c]` is read with `Board.get` and
  written with `Board.set`;
* `PlaySound` calls are recorded, in order, in a list of `SoundId`s;
* `rand()` is a list of draws that is consumed front to back;
* the recursion of `Board_RevealEmpty` is bounded by a fuel argument, and
  running out of fuel is the distinguished result `none`.
-/

namespace Minesweeper

/-! ## board.h -/

abbrev ROWS : Nat := 9
abbrev COLS : Nat := 9
abbrev MINES : Nat := 10

/-- The `Cell` struct of board.h. -/
structure Cell where
  revealed : Bool
  hasMine : Bool
  flagged : Bool
  nearbyMines : Int
  deriving DecidableEq, Repr, Inhabited

/-- The C array `Cell board[ROWS][COLS]`. -/
@[ext]
structure Board where
  cells : Fin ROWS → Fin COLS → Cell

/-- The five `Sound` handles of the `Game` struct; `PlaySound (g->sX)` is logged as `sX`. -/
inductive SoundId where
  | sNumber
  | sBoom
  | sFlag
  | sOver
  | sWin
  deriving DecidableEq, Repr

/-! ## board.c -/

/-- `IsValidCell` of board.c, line 17. -/
def IsValidCell (row col : Int) : Bool :=
  decide (row ≥ 0) && decide (row < (ROWS : Int)) && decide (col ≥ 0) && decide (col < (COLS : Int))

/-- Read of `board[r][c]` with `int` indices.  The C code only performs the read
when the indices are inside the array; outside it the model yields `default`. -/
def Board.get (b : Board) (r c : Int) : Cell :=
  if h : 0 ≤ r ∧ r < (ROWS : Int) ∧ 0 ≤ c ∧ c < (COLS : Int) then
    b.cells ⟨r.toNat, by omega⟩ ⟨c.toNat, by omega⟩
  else default

/-- Write of `board[r][c] = v` with `int` indices (no cell is touched when the
indices are outside the array). -/
def Board.set (b : Board) (r c : Int) (v : Cell) : Board :=
  ⟨fun i j => if ((i : Nat) : Int) = r ∧ ((j : Nat) : Int) = c then v else b.cells i j⟩

/-- All index pairs in the order of `for r ... for c ...`. -/
def allCells : List (Fin ROWS × Fin COLS) :=
  (List.finRange ROWS).flatMap fun r => (List.finRange COLS).map fun c => (r, c)

/-- The offsets `(dr, dc)` in the order of `for dr = -1..1, for dc = -1..1`. -/
def offsets : List (Int × Int) :=
  ([-1, 0, 1] : List Int).flatMap fun dr => ([-1, 0, 1] : List Int).map fun dc => (dr, dc)

/-- `Board_Init`, board.c line 22: every field of every cell is cleared. -/
def Board_Init (_board : Board) : Board :=
  ⟨fun _ _ => { revealed := false, hasMine := false, flagged := false, nearbyMines := 0 }⟩

/-- The `while (placed < MINES)` loop of `Board_PlaceMines`; each iteration takes
two values of `rand()` from `draws`.  `none` when the draws run out before the
loop condition fails. -/
def placeMinesLoop : List Nat → Nat → Board → Option Board
  | draws, placed, board =>
    if placed < MINES then
      match draws with
      | d1 :: d2 :: rest =>
        let r : Int := ((d1 % ROWS : Nat) : Int)
        let c : Int := ((d2 % COLS : Nat) : Int)
        if !(board.get r c).hasMine then
          placeMinesLoop rest (placed + 1) (board.set r c { board.get r c with hasMine := true })
        else
          placeMinesLoop rest placed board
      | _ => none
    else some board

/-- `Board_PlaceMines`, board.c line 33. -/
def Board_PlaceMines (draws : List Nat) (board : Board) : Option Board :=
  placeMinesLoop draws 0 board

/-- The inner `dr`/`dc` loops of `Board_CountNearbyMines`: the value of `count`. -/
def countAround (board : Board) (r c : Int) : Nat :=
  offsets.foldl
    (fun count d =>
      let nr := r + d.1
      let nc := c + d.2
      if IsValidCell nr nc && (board.get nr nc).hasMine then count + 1 else count)
    0

/-- The body of the `r`/`c` loops of `Board_CountNearbyMines` (lines 50-58) at cell `p`. -/
def countStep (board : Board) (p : Fin ROWS × Fin COLS) : Board :=
  let r : Int := ((p.1 : Nat) : Int)
  let c : Int := ((p.2 : Nat) : Int)
  if (board.get r c).hasMine then board
  else board.set r c { board.get r c with nearbyMines := (countAround board r c : Int) }

/-- `Board_CountNearbyMines`, board.c line 46. -/
def Board_CountNearbyMines (board : Board) : Board :=
  allCells.foldl countStep board

/-- The state threaded through the flood fill: the board and the sounds played so far. -/
abbrev FillState := Board × List SoundId

/-- One iteration of the `dr`/`dc` loop body of `Board_RevealEmpty` (lines 69-78);
`recurse` stands for the recursive call on line 78. -/
def revealStep (recurse : FillState → Int → Int → Option FillState) (sound : SoundId)
    (row col : Int) (s : FillState) (d : Int × Int) : Option FillState :=
  let nr := row + d.1
  let nc := col + d.2
  if !IsValidCell nr nc then some s
  else if (s.1.get nr nc).revealed then some s
  else if (s.1.get nr nc).hasMine then some s
  else
    let board := s.1.set nr nc { s.1.get nr nc with revealed := true }
    let s1 : FillState := (board, s.2 ++ [sound])
    if (board.get nr nc).nearbyMines = 0 then recurse s1 nr nc else some s1

/-- `Board_RevealEmpty`, board.c line 64, with the recursion depth bounded by the
first argument; `none` means the bound was reached. -/
def RevealEmptyFuel : Nat → SoundId → FillState → Int → Int → Option FillState
  | 0, _, _, _, _ => none
  | fuel + 1, sound, s, row, col =>
    offsets.foldlM (revealStep (RevealEmptyFuel fuel sound) sound row col) s

/-- `Board_RevealEmpty`: at most `ROWS * COLS` calls can be nested (each nested
call follows the reveal of a fresh cell), so this fuel is never exhausted; see
`RevealEmptyFuel_enough`. -/
def Board_RevealEmpty (board : Board) (row col : Int) (sound : SoundId) : FillState :=
  (RevealEmptyFuel (ROWS * COLS + 1) sound (board, []) row col).getD (board, [])

/-- The body of the `r`/`c` loops of `Board_RevealAllMines` (lines 87-88) at cell `p`. -/
def revealMineStep (board : Board) (p : Fin ROWS × Fin COLS) : Board :=
  let r : Int := ((p.1 : Nat) : Int)
  let c : Int := ((p.2 : Nat) : Int)
  if (board.get r c).hasMine then board.set r c { board.get r c with revealed := true }
  else board

/-- `Board_RevealAllMines`, board.c line 83. -/
def Board_RevealAllMines (board : Board) : Board :=
  allCells.foldl revealMineStep board

/-- `Board_CountRevealedSafe`, board.c line 91. -/
def Board_CountRevealedSafe (board : Board) : Nat :=
  allCells.foldl
    (fun count p =>
      if (board.cells p.1 p.2).revealed && !(board.cells p.1 p.2).hasMine then count + 1 else count)
    0

/-! ## game.h / game.c -/

/-- The `Game` struct of game.h: the board, the two terminal flags and the three
play-once guards.  The `Sound`/`Texture2D` handles are loaded once by `Game_Init`
and only ever passed to `PlaySound`/`DrawTexturePro`; they are represented by the
constructors of `SoundId`. -/
structure Game where
  board : Board
  gameOver : Bool
  win : Bool
  playedBoomSound : Bool
  playedGameOverSound : Bool
  playedWinSound : Bool

/-- What one frame reads from the input library: the two
`IsMouseButtonPressed` answers and, for each of the two `GetMouseCell` calls, the
integers `(int)(mouse.x / CELL_SIZE)` and `(int)(mouse.y / CELL_SIZE)`. -/
structure FrameInput where
  leftPressed : Bool
  leftX : Int
  leftY : Int
  rightPressed : Bool
  rightX : Int
  rightY : Int

/-- `GetMouseCell`, game.c line 22, from the truncated quotients `c` and `r`:
`some (row, col)` when the function returns true. -/
def GetMouseCell (c r : Int) : Option (Int × Int) :=
  if decide (r < 0) || decide (r ≥ (ROWS : Int)) || decide (c < 0) || decide (c ≥ (COLS : Int)) then none
  else some (r, c)

/-- `HandleLeftClick`, game.c line 35: the new state and the sounds played. -/
def HandleLeftClick (g : Game) (row col : Int) : Game × List SoundId :=
  if (g.board.get row col).flagged || (g.board.get row col).revealed then (g, [])
  else
    let g1 : Game :=
      { g with board := g.board.set row col { g.board.get row col with revealed := true } }
    if (g1.board.get row col).hasMine then
      let (g2, log2) : Game × List SoundId :=
        if !g1.playedBoomSound then ({ g1 with playedBoomSound := true }, [SoundId.sBoom])
        else (g1, [])
      let g3 : Game := { g2 with gameOver := true }
      let g4 : Game := { g3 with board := Board_RevealAllMines g3.board }
      if !g4.playedGameOverSound then
        ({ g4 with playedGameOverSound := true }, log2 ++ [SoundId.sOver])
      else (g4, log2)
    else
      if (g1.board.get row col).nearbyMines = 0 then
        let r := Board_RevealEmpty g1.board row col SoundId.sNumber
        ({ g1 with board := r.1 }, [SoundId.sNumber] ++ r.2)
      else (g1, [SoundId.sNumber])

/-- `HandleRightClick`, game.c line 61. -/
def HandleRightClick (g : Game) (row col : Int) : Game × List SoundId :=
  if (g.board.get row col).revealed then (g, [])
  else
    ({ g with board :=
        g.board.set row col { g.board.get row col with flagged := !(g.board.get row col).flagged } },
      [SoundId.sFlag])

/-- `CheckWinCondition`, game.c line 70. -/
def CheckWinCondition (g : Game) : Game × List SoundId :=
  if Board_CountRevealedSafe g.board = ROWS * COLS - MINES then
    let g1 : Game := { g with win := true }
    if !g1.playedWinSound then ({ g1 with playedWinSound := true }, [SoundId.sWin])
    else (g1, [])
  else (g, [])

/-- `HandleDeferredSounds`, game.c line 82. -/
def HandleDeferredSounds (g : Game) : Game × List SoundId :=
  let (g1, log1) : Game × List SoundId :=
    if g.gameOver && !g.playedGameOverSound then
      ({ g with playedGameOverSound := true }, [SoundId.sOver])
    else (g, [])
  if g1.win && !g1.playedWinSound then
    ({ g1 with playedWinSound := true }, log1 ++ [SoundId.sWin])
  else (g1, log1)

/-- `Game_Init`, game.c line 98, on the (uninitialised) struct `g`; `draws` are the
values `rand()` returns after the `srand` call.  `none` when the mine placement
loop does not finish on these draws. -/
def Game_Init (g : Game) (draws : List Nat) : Option Game :=
  match Board_PlaceMines draws (Board_Init g.board) with
  | none => none
  | some placed =>
    some
      { board := Board_CountNearbyMines placed
        gameOver := false
        win := false
        playedBoomSound := false
        playedGameOverSound := false
        playedWinSound := false }

/-- Lines 125-126 of `Game_Update`: the left-button test and the primary action. -/
def leftPhase (g : Game) (inp : FrameInput) : Game × List SoundId :=
  if inp.leftPressed then
    match GetMouseCell inp.leftX inp.leftY with
    | some (row, col) => HandleLeftClick g row col
    | none => (g, [])
  else (g, [])

/-- Lines 128-129 of `Game_Update`: the right-button test and the secondary action. -/
def rightPhase (g : Game) (inp : FrameInput) : Game × List SoundId :=
  if inp.rightPressed then
    match GetMouseCell inp.rightX inp.rightY with
    | some (row, col) => HandleRightClick g row col
    | none => (g, [])
  else (g, [])

/-- `Game_Update`, game.c line 120: one frame. -/
def Game_Update (g : Game) (inp : FrameInput) : Game × List SoundId :=
  if !g.gameOver && !g.win then
    let r1 := leftPhase g inp
    let r2 := rightPhase r1.1 inp
    let r3 := CheckWinCondition r2.1
    (r3.1, r1.2 ++ r2.2 ++ r3.2)
  else HandleDeferredSounds g

/-- The main loop of main.c as far as the state is concerned: `Game_Update` once
per frame, the sounds of all frames in order. -/
def runFrames : Game → List FrameInput → Game × List SoundId
  | g, [] => (g, [])
  | g, inp :: rest =>
    let r := Game_Update g inp
    let r2 := runFrames r.1 rest
    (r2.1, r.2 ++ r2.2)

/-! ## Vocabulary of the specification -/

/-- A board position. -/
abbrev Pos := Fin ROWS × Fin COLS

/-- The position `q` lies in the 3x3 block centred at `p` (`p` itself included). -/
def Near (p q : Pos) : Prop :=
  (((p.1 : Nat) : Int) - ((q.1 : Nat) : Int) ≤ 1 ∧ ((q.1 : Nat) : Int) - ((p.1 : Nat) : Int) ≤ 1) ∧
  (((p.2 : Nat) : Int) - ((q.2 : Nat) : Int) ≤ 1 ∧ ((q.2 : Nat) : Int) - ((p.2 : Nat) : Int) ≤ 1)

instance (p q : Pos) : Decidable (Near p q) := by
  unfold Near
  infer_instance

/-- The position `q` lies in the 3x3 block centred at the `int` coordinates `(row, col)`. -/
def NearAt (row col : Int) (q : Pos) : Prop :=
  (row - ((q.1 : Nat) : Int) ≤ 1 ∧ ((q.1 : Nat) : Int) - row ≤ 1) ∧
  (col - ((q.2 : Nat) : Int) ≤ 1 ∧ ((q.2 : Nat) : Int) - col ≤ 1)

/-- Moore adjacency: one of the up to eight neighbours. -/
def MooreAdj (p q : Pos) : Prop := p ≠ q ∧ Near p q

instance (p q : Pos) : Decidable (MooreAdj p q) := by
  unfold MooreAdj
  infer_instance

/-- The set of mine-bearing cells. -/
def mineSet (b : Board) : Finset Pos :=
  Finset.univ.filter fun p => (b.cells p.1 p.2).hasMine = true

/-- The set of cells that are revealed and hold no mine. -/
def revealedSafeSet (b : Board) : Finset Pos :=
  Finset.univ.filter fun p => (b.cells p.1 p.2).revealed = true ∧ (b.cells p.1 p.2).hasMine = false

/-- The set of cells that are neither revealed nor mined: the cells a flood fill can still reveal. -/
def hiddenSafeSet (b : Board) : Finset Pos :=
  Finset.univ.filter fun p => (b.cells p.1 p.2).revealed = false ∧ (b.cells p.1 p.2).hasMine = false

/-- The number of mine-bearing cells among the Moore neighbours of `p`. -/
def mineNeighbours (b : Board) (p : Pos) : Nat :=
  (Finset.univ.filter fun q => MooreAdj p q ∧ (b.cells q.1 q.2).hasMine = true).card

/-- A cell without a mine whose `nearbyMines` is zero. -/
def ZeroSafe (b : Board) (p : Pos) : Prop :=
  (b.cells p.1 p.2).hasMine = false ∧ (b.cells p.1 p.2).nearbyMines = 0

/-- The cell `z` belongs to the 8-connected component of zero-count, non-mine cells
that contains `start`: a chain of Moore-adjacent `ZeroSafe` cells leads from `start` to `z`. -/
def InZeroRegion (b : Board) (start z : Pos) : Prop :=
  ZeroSafe b start ∧ Relation.ReflTransGen (fun x y => MooreAdj x y ∧ ZeroSafe b y) start z

/-- Every non-mine cell of the 3x3 block around `p` is revealed. -/
def Closed (b : Board) (p : Pos) : Prop :=
  ∀ q : Pos, Near p q → (b.cells q.1 q.2).hasMine = false → (b.cells q.1 q.2).revealed = true

/-- The board `b2` differs from `b1` at most in `revealed` flags of non-mine cells
that went from false to true. -/
structure Grows (b1 b2 : Board) : Prop where
  hasMine : ∀ (i : Fin ROWS) (j : Fin COLS), (b2.cells i j).hasMine = (b1.cells i j).hasMine
  flagged : ∀ (i : Fin ROWS) (j : Fin COLS), (b2.cells i j).flagged = (b1.cells i j).flagged
  nearby : ∀ (i : Fin ROWS) (j : Fin COLS), (b2.cells i j).nearbyMines = (b1.cells i j).nearbyMines
  mono : ∀ (i : Fin ROWS) (j : Fin COLS), (b1.cells i j).revealed = true → (b2.cells i j).revealed = true
  mine : ∀ (i : Fin ROWS) (j : Fin COLS),
    (b1.cells i j).hasMine = true → (b2.cells i j).revealed = (b1.cells i j).revealed

/-- Chains of `ZeroSafe` cells in which consecutive cells lie in each other's 3x3 block. -/
def ZeroChain (b : Board) : Pos → Pos → Prop :=
  Relation.ReflTransGen fun x y => Near x y ∧ ZeroSafe b y

/-- What a (partial) run of the flood fill rooted at `(row, col)` does to the fill state. -/
structure FillRel (row col : Int) (sound : SoundId) (s1 s2 : FillState) : Prop where
  grows : Grows s1.1 s2.1
  closes : ∀ p : Pos, (s1.1.cells p.1 p.2).revealed = false → (s2.1.cells p.1 p.2).revealed = true →
    (s1.1.cells p.1 p.2).nearbyMines = 0 → Closed s2.1 p
  reach : ∀ root : Pos, ((root.1 : Nat) : Int) = row → ((root.2 : Nat) : Int) = col →
    ∀ p : Pos, (s1.1.cells p.1 p.2).revealed = false → (s2.1.cells p.1 p.2).revealed = true →
      ∃ z : Pos, ZeroChain s1.1 root z ∧ Near z p
  plays : ∃ k : Nat, s2.2 = s1.2 ++ List.replicate k sound

/-- States of the running program: what `Game_Init` produces and everything
`Game_Update` makes of it, frame after frame. -/
inductive Reachable : Game → Prop
  | init (g : Game) (draws : List Nat) (g0 : Game) : Game_Init g draws = some g0 → Reachable g0
  | frame (g : Game) (inp : FrameInput) : Reachable g → Reachable (Game_Update g inp).1

/-- The postcondition of one complete call `Board_RevealEmpty(board, row, col)`. -/
def FillPost (row col : Int) (snd : SoundId) (s1 s2 : FillState) : Prop :=
  FillRel row col snd s1 s2 ∧
    ∀ q : Pos, NearAt row col q → (s2.1.cells q.1 q.2).hasMine = false →
      (s2.1.cells q.1 q.2).revealed = true

/-- After the loop iteration for offset `d`, the cell at that offset is revealed unless it holds a mine. -/
def TargetDone (row col : Int) (d : Int × Int) (s2 : FillState) : Prop :=
  ∀ q : Pos, ((q.1 : Nat) : Int) = row + d.1 → ((q.2 : Nat) : Int) = col + d.2 →
    (s2.1.cells q.1 q.2).hasMine = false → (s2.1.cells q.1 q.2).revealed = true

/-- The cell that offset `d` from `p` designates (wrapped into range; exact whenever the
sum is in range). -/
def shiftPos (p : Pos) (d : Int × Int) : Pos :=
  (⟨(((p.1 : Nat) : Int) + d.1).toNat % ROWS, Nat.mod_lt _ (by decide)⟩,
   ⟨(((p.2 : Nat) : Int) + d.2).toNat % COLS, Nat.mod_lt _ (by decide)⟩)

/-- The cell that the draws `d1`, `d2` select: `(d1 % ROWS, d2 % COLS)`. -/
def drawPos (d1 d2 : Nat) : Pos :=
  (⟨d1 % ROWS, Nat.mod_lt _ (by decide)⟩, ⟨d2 % COLS, Nat.mod_lt _ (by decide)⟩)

/-- The board after `cell->revealed = true` in `HandleLeftClick`. -/
def revealAt (b : Board) (q : Pos) : Board :=
  b.set ((q.1 : Nat) : Int) ((q.2 : Nat) : Int)
    { b.get ((q.1 : Nat) : Int) ((q.2 : Nat) : Int) with revealed := true }

/-- The boards agree on the mine layout and on `revealed` of every non-mine cell. -/
def SafeSame (b1 b2 : Board) : Prop :=
  ∀ (i : Fin ROWS) (j : Fin COLS), (b2.cells i j).hasMine = (b1.cells i j).hasMine ∧
    ((b1.cells i j).hasMine = false → (b2.cells i j).revealed = (b1.cells i j).revealed)

/-- The invariant behind the mutual exclusion of `gameOver` and `win`. -/
def FlagsInv (g : Game) : Prop :=
  (g.gameOver = true → g.win = false) ∧
    (g.gameOver = false → g.win = false →
      Board_CountRevealedSafe g.board ≠ ROWS * COLS - MINES)

/-- How often `sBoom` may still be played: once while the guard is clear. -/
def boomLeft (g : Game) : Nat := if g.playedBoomSound then 0 else 1

/-- How often `sOver` may still be played. -/
def overLeft (g : Game) : Nat := if g.playedGameOverSound then 0 else 1

/-- How often `sWin` may still be played. -/
def winLeft (g : Game) : Nat := if g.playedWinSound then 0 else 1

/-- The step from `g` to `r.1` that played `r.2` paid for every one-shot sound it
played by setting the corresponding guard. -/
def Spends (g : Game) (r : Game × List SoundId) : Prop :=
  r.2.count SoundId.sBoom + boomLeft r.1 ≤ boomLeft g ∧
  r.2.count SoundId.sOver + overLeft r.1 ≤ overLeft g ∧
  r.2.count SoundId.sWin + winLeft r.1 ≤ winLeft g

/-- The board `b2` has the mine layout and the counts of `b1`, and every cell
revealed in `b1` is revealed in `b2`. -/
structure Keeps (b1 b2 : Board) : Prop where
  hasMine : ∀ (i : Fin ROWS) (j : Fin COLS), (b2.cells i j).hasMine = (b1.cells i j).hasMine
  nearby : ∀ (i : Fin ROWS) (j : Fin COLS), (b2.cells i j).nearbyMines = (b1.cells i j).nearbyMines
  mono : ∀ (i : Fin ROWS) (j : Fin COLS), (b1.cells i j).revealed = true → (b2.cells i j).revealed = true

/-- The board holds exactly `MINES` mines and every cell without a mine carries the
number of its mine-bearing Moore neighbours. -/
def LayoutOK (b : Board) : Prop :=
  (mineSet b).card = MINES ∧
    ∀ (i : Fin ROWS) (j : Fin COLS), (b.cells i j).hasMine = false →
      (b.cells i j).nearbyMines = (mineNeighbours b (i, j) : Int)

/-- Every revealed zero-count cell without a mine has its whole 3x3 block revealed,
mines apart. -/
def ClosedInv (b : Board) : Prop :=
  ∀ p : Pos, (b.cells p.1 p.2).revealed = true → ZeroSafe b p → Closed b p

/-! ## A ghost record of the recursion of `Board_RevealEmpty` -/

/-- The fill state together with a ghost record: the coordinates of the recursive calls
of `Board_RevealEmpty` made so far, in call order. -/
abbrev TraceState := FillState × List (Int × Int)

/-- The loop body `revealStep`, recording the target of the recursive call on line 78. -/
def revealStepT (recurse : TraceState → Int → Int → Option TraceState) (sound : SoundId)
    (row col : Int) (t : TraceState) (d : Int × Int) : Option TraceState :=
  let nr := row + d.1
  let nc := col + d.2
  if !IsValidCell nr nc then some t
  else if (t.1.1.get nr nc).revealed then some t
  else if (t.1.1.get nr nc).hasMine then some t
  else
    let board := t.1.1.set nr nc { t.1.1.get nr nc with revealed := true }
    let s1 : FillState := (board, t.1.2 ++ [sound])
    if (board.get nr nc).nearbyMines = 0 then recurse (s1, t.2 ++ [(nr, nc)]) nr nc
    else some (s1, t.2)

/-- The function `RevealEmptyFuel` with the ghost record of its recursive calls. -/
def RevealEmptyTrace : Nat → SoundId → TraceState → Int → Int → Option TraceState
  | 0, _, _, _, _ => none
  | fuel + 1, sound, t, row, col =>
    offsets.foldlM (revealStepT (RevealEmptyTrace fuel sound) sound row col) t

/-- The recorded calls are pairwise distinct and each of them went to a cell that is
revealed on board `b`. -/
def TraceInv (b : Board) (tr : List (Int × Int)) : Prop :=
  tr.Nodup ∧
    ∀ e ∈ tr, ∃ q : Pos, ((q.1 : Nat) : Int) = e.1 ∧ ((q.2 : Nat) : Int) = e.2 ∧
      (b.cells q.1 q.2).revealed = true

/-- Revealed cells of `b1` are revealed in `b2`. -/
def RevealedMono (b1 b2 : Board) : Prop :=
  ∀ (i : Fin ROWS) (j : Fin COLS), (b1.cells i j).revealed = true → (b2.cells i j).revealed = true

/-! ## Sample inputs -/

/-- The centre cell of the board. -/
def centreCell : Pos := (4, 4)

/-- A board without mines on which only the centre cell has a zero count. -/
def centreBoard : Board :=
  ⟨fun i j => ⟨false, false, false, if (i, j) = centreCell then 0 else 1⟩⟩

/-- Twenty-two values of `rand()`: the cell (0,0) is drawn twice, then the rest of the
3x3 corner block and the cell (8,8). -/
def sampleDraws : List Nat :=
  [0, 0, 0, 0, 0, 1, 0, 2, 1, 0, 1, 1, 1, 2, 2, 0, 2, 1, 2, 2, 8, 8]

/-- The board `Board_PlaceMines` produces from `sampleDraws`. -/
def sampleMined : Board :=
  (Board_PlaceMines sampleDraws (Board_Init centreBoard)).getD (Board_Init centreBoard)

/-- Some contents of the `Game` struct before `Game_Init` runs. -/
def blankGame : Game := ⟨centreBoard, false, false, false, false, false⟩

/-- The game `Game_Init` produces from `sampleDraws`: mines on the 3x3 corner block and on (8,8). -/
def sampleGame : Game := (Game_Init blankGame sampleDraws).getD blankGame

/-- The corner cell (0,0); it holds a mine in `sampleGame`. -/
def cornerCell : Pos := (0, 0)

/-- A frame in which only the left button is pressed, over the cell `q`. -/
def leftClickOn (q : Pos) : FrameInput :=
  ⟨true, ((q.2 : Nat) : Int), ((q.1 : Nat) : Int), false, 0, 0⟩

/-- A game that has been lost. -/
def lostGame : Game := ⟨centreBoard, true, false, true, true, false⟩

/-- A game in which every cell is flagged. -/
def flaggedGame : Game := ⟨⟨fun _ _ => ⟨false, false, true, 0⟩⟩, false, false, false, false, false⟩

/-- A game with the ten mines of row 0 and cell (1,0), rows 2 to 8 revealed. -/
def tenMineGame : Game :=
  ⟨⟨fun i j => ⟨decide (1 < i.val), decide (i.val = 0) || (decide (i.val = 1) && decide (j.val = 0)),
      false, 0⟩⟩, false, false, false, false, false⟩

/-- A frame in which only the right button is pressed, over the cell `q`. -/
def rightClickOn (q : Pos) : FrameInput :=
  ⟨false, 0, 0, true, ((q.2 : Nat) : Int), ((q.1 : Nat) : Int)⟩

/-- The cell (4,5), right of the centre cell. -/
def eastCell : Pos := (4, 5)

/-- A frame in which both buttons are pressed over the cell `q`. -/
def bothClickOn (q : Pos) : FrameInput :=
  ⟨true, ((q.2 : Nat) : Int), ((q.1 : Nat) : Int), true, ((q.2 : Nat) : Int), ((q.1 : Nat) : Int)⟩

/-! ## Reading and writing cells -/

theorem Board.get_coe (b : Board) (i : Fin ROWS) (j : Fin COLS) :
    b.get ((i : Nat) : Int) ((j : Nat) : Int) = b.cells i j := by
  have hi := i.isLt
  have hj := j.isLt
  unfold Board.get
  rw [dif_pos (by omega)]
  congr

theorem Board.set_cells (b : Board) (r c : Int) (v : Cell) (i : Fin ROWS) (j : Fin COLS) :
    (b.set r c v).cells i j =
      if ((i : Nat) : Int) = r ∧ ((j : Nat) : Int) = c then v else b.cells i j :=
  rfl

theorem IsValidCell_iff (r c : Int) :
    IsValidCell r c = true ↔
      ∃ (i : Fin ROWS) (j : Fin COLS), ((i : Nat) : Int) = r ∧ ((j : Nat) : Int) = c := by
  unfold IsValidCell
  simp only [Bool.and_eq_true, decide_eq_true_eq]
  constructor
  · intro h
    refine ⟨⟨r.toNat, by omega⟩, ⟨c.toNat, by omega⟩, ?_, ?_⟩ <;> simp <;> omega
  · rintro ⟨i, j, rfl, rfl⟩
    have hi := i.isLt
    have hj := j.isLt
    omega

theorem mem_allCells (p : Pos) : p ∈ allCells := by
  unfold allCells
  simp [List.mem_flatMap, List.mem_finRange]

theorem allCells_nodup : allCells.Nodup := by
  decide

theorem mem_offsets (d : Int × Int) :
    d ∈ offsets ↔ (-1 ≤ d.1 ∧ d.1 ≤ 1) ∧ (-1 ≤ d.2 ∧ d.2 ≤ 1) := by
  obtain ⟨a, b⟩ := d
  simp only [offsets, List.mem_flatMap, List.mem_map, List.mem_cons, List.mem_singleton,
    Prod.mk.injEq, List.not_mem_nil, or_false]
  constructor
  · rintro ⟨x, hx, y, hy, rfl, rfl⟩
    omega
  · rintro ⟨h1, h2⟩
    exact ⟨a, by omega, b, by omega, rfl, rfl⟩

/-! ## Counting over the board -/

theorem foldl_count_eq {α : Type} (P : α → Bool) (l : List α) (n : Nat) :
    l.foldl (fun count x => if P x then count + 1 else count) n = n + l.countP P := by
  induction l generalizing n with
  | nil => simp
  | cons x xs ih =>
    simp only [List.foldl_cons, List.countP_cons]
    rw [ih]
    by_cases h : P x = true <;> simp [h]
    omega

theorem countP_allCells (P : Pos → Bool) :
    allCells.countP P = (Finset.univ.filter fun p => P p = true).card := by
  have huniv : (Finset.univ : Finset Pos) = allCells.toFinset := by
    ext p
    simp [mem_allCells]
  rw [huniv, ← List.toFinset_filter, List.toFinset_card_of_nodup (allCells_nodup.filter _),
    List.countP_eq_length_filter]

theorem Board_CountRevealedSafe_eq (b : Board) :
    Board_CountRevealedSafe b = (revealedSafeSet b).card := by
  unfold Board_CountRevealedSafe revealedSafeSet
  rw [foldl_count_eq (fun p : Pos => (b.cells p.1 p.2).revealed && !(b.cells p.1 p.2).hasMine),
    countP_allCells]
  simp


theorem card_safe_add_card_mine (b : Board) :
    (Finset.univ.filter fun p : Pos => (b.cells p.1 p.2).hasMine = false).card + (mineSet b).card
      = ROWS * COLS := by
  have h := Finset.filter_card_add_filter_neg_card_eq_card (s := (Finset.univ : Finset Pos))
    (fun p : Pos => (b.cells p.1 p.2).hasMine = true)
  simp only [Finset.card_univ, Fintype.card_prod, Fintype.card_fin] at h
  unfold mineSet
  rw [← h, add_comm]
  congr 2
  ext p
  simp

theorem revealedSafe_full_iff (b : Board) (hm : (mineSet b).card = MINES) :
    Board_CountRevealedSafe b = ROWS * COLS - MINES ↔
      ∀ (i : Fin ROWS) (j : Fin COLS), (b.cells i j).hasMine = false → (b.cells i j).revealed = true := by
  rw [Board_CountRevealedSafe_eq]
  have hsum := card_safe_add_card_mine b
  rw [hm] at hsum
  have hsub : revealedSafeSet b ⊆ Finset.univ.filter fun p : Pos => (b.cells p.1 p.2).hasMine = false := by
    intro p hp
    simp only [revealedSafeSet, Finset.mem_filter, Finset.mem_univ, true_and] at hp ⊢
    exact hp.2
  constructor
  · intro hc i j hij
    have heq := Finset.eq_of_subset_of_card_le hsub (by omega)
    have hmem : (i, j) ∈ Finset.univ.filter fun p : Pos => (b.cells p.1 p.2).hasMine = false := by
      simp [hij]
    rw [← heq] at hmem
    simp only [revealedSafeSet, Finset.mem_filter, Finset.mem_univ, true_and] at hmem
    exact hmem.1
  · intro hall
    have heq : revealedSafeSet b = Finset.univ.filter fun p : Pos => (b.cells p.1 p.2).hasMine = false := by
      ext p
      simp only [revealedSafeSet, Finset.mem_filter, Finset.mem_univ, true_and]
      constructor
      · exact fun h => h.2
      · exact fun h => ⟨hall p.1 p.2 h, h⟩
    rw [heq]
    omega

/-- C5. On a board with exactly `MINES` mines and with `win` false beforehand,
`CheckWinCondition` leaves `win` true exactly when every non-mine cell is revealed,
which is exactly when `Board_CountRevealedSafe` is `9 * 9 - 10 = 71`; the board is
not touched. -/
theorem C5_CheckWinCondition_iff (g : Game) (hm : (mineSet g.board).card = MINES)
    (hw : g.win = false) :
    ((CheckWinCondition g).1.win = true ↔
        ∀ (i : Fin ROWS) (j : Fin COLS),
          (g.board.cells i j).hasMine = false → (g.board.cells i j).revealed = true) ∧
      ((CheckWinCondition g).1.win = true ↔ Board_CountRevealedSafe g.board = 71) ∧
      (CheckWinCondition g).1.board = g.board := by
  have hfull := revealedSafe_full_iff g.board hm
  have key : (CheckWinCondition g).1.win = true ↔ Board_CountRevealedSafe g.board = ROWS * COLS - MINES := by
    unfold CheckWinCondition
    by_cases hc : Board_CountRevealedSafe g.board = ROWS * COLS - MINES
    · simp only [hc, if_true]
      split <;> simp
    · simp [hc, hw]
  refine ⟨key.trans hfull, key, ?_⟩
  unfold CheckWinCondition
  dsimp only
  split_ifs <;> rfl

/-! ## The flood fill -/

theorem Grows_refl (b : Board) : Grows b b :=
  ⟨fun _ _ => rfl, fun _ _ => rfl, fun _ _ => rfl, fun _ _ h => h, fun _ _ _ => rfl⟩

theorem Grows_trans {b1 b2 b3 : Board} (h12 : Grows b1 b2) (h23 : Grows b2 b3) : Grows b1 b3 where
  hasMine i j := (h23.hasMine i j).trans (h12.hasMine i j)
  flagged i j := (h23.flagged i j).trans (h12.flagged i j)
  nearby i j := (h23.nearby i j).trans (h12.nearby i j)
  mono i j h := h23.mono i j (h12.mono i j h)
  mine i j h := by
    rw [h23.mine i j (by rw [h12.hasMine]; exact h), h12.mine i j h]

theorem Grows.hidden_le {b1 b2 : Board} (h : Grows b1 b2) :
    (hiddenSafeSet b2).card ≤ (hiddenSafeSet b1).card := by
  apply Finset.card_le_card
  intro p hp
  simp only [hiddenSafeSet, Finset.mem_filter, Finset.mem_univ, true_and] at hp ⊢
  refine ⟨?_, by rw [← h.hasMine]; exact hp.2⟩
  by_contra hr
  have := h.mono p.1 p.2 (by simpa using hr)
  rw [this] at hp
  exact absurd hp.1 (by simp)

theorem hiddenSafe_card_le (b : Board) : (hiddenSafeSet b).card ≤ ROWS * COLS := by
  have := Finset.card_le_univ (hiddenSafeSet b)
  simpa using this

theorem Board.set_cells_pos (b : Board) (q : Pos) (v : Cell) (i : Fin ROWS) (j : Fin COLS) :
    (b.set ((q.1 : Nat) : Int) ((q.2 : Nat) : Int) v).cells i j = if (i, j) = q then v else b.cells i j := by
  rw [Board.set_cells]
  obtain ⟨q1, q2⟩ := q
  simp only [Prod.mk.injEq, Nat.cast_inj, Fin.val_inj]

/-- The assignment `board[nr][nc].revealed = true` on a cell without a mine. -/
theorem reveal_grows (b : Board) (q : Pos) (hm : (b.cells q.1 q.2).hasMine = false) :
    Grows b (b.set ((q.1 : Nat) : Int) ((q.2 : Nat) : Int)
      { b.get ((q.1 : Nat) : Int) ((q.2 : Nat) : Int) with revealed := true }) := by
  constructor <;> intro i j <;> rw [Board.set_cells_pos, Board.get_coe] <;>
    by_cases h : (i, j) = q
  all_goals first
    | (rw [if_neg h]; done)
    | (rw [if_neg h]; exact fun hh => hh)
    | (rw [if_neg h]; exact fun _ => rfl)
    | (rw [if_pos h]; subst h; simp_all)

theorem reveal_hidden_lt (b : Board) (q : Pos) (hm : (b.cells q.1 q.2).hasMine = false)
    (hr : (b.cells q.1 q.2).revealed = false) :
    (hiddenSafeSet (b.set ((q.1 : Nat) : Int) ((q.2 : Nat) : Int)
      { b.get ((q.1 : Nat) : Int) ((q.2 : Nat) : Int) with revealed := true })).card
      < (hiddenSafeSet b).card := by
  apply Finset.card_lt_card
  rw [Finset.ssubset_iff_of_subset]
  · refine ⟨q, ?_, ?_⟩
    · simp [hiddenSafeSet, hm, hr]
    · simp [hiddenSafeSet, Board.set_cells_pos]
  · intro p hp
    have hg := reveal_grows b q hm
    simp only [hiddenSafeSet, Finset.mem_filter, Finset.mem_univ, true_and] at hp ⊢
    refine ⟨?_, by rw [← hg.hasMine]; exact hp.2⟩
    by_contra hr'
    have := hg.mono p.1 p.2 (by simpa using hr')
    rw [this] at hp
    exact absurd hp.1 (by simp)

theorem Closed_mono {b1 b2 : Board} (h : Grows b1 b2) {p : Pos} (hc : Closed b1 p) : Closed b2 p := by
  intro q hq hm
  exact h.mono _ _ (hc q hq (by rw [← h.hasMine]; exact hm))

theorem ZeroSafe_of_Grows {b1 b2 : Board} (h : Grows b1 b2) (p : Pos) : ZeroSafe b2 p ↔ ZeroSafe b1 p := by
  unfold ZeroSafe
  rw [h.hasMine, h.nearby]

theorem ZeroChain_of_Grows {b1 b2 : Board} (h : Grows b1 b2) {x y : Pos} (hc : ZeroChain b2 x y) :
    ZeroChain b1 x y := by
  unfold ZeroChain at *
  refine Relation.ReflTransGen.mono ?_ hc
  intro a c hac
  exact ⟨hac.1, (ZeroSafe_of_Grows h c).1 hac.2⟩


theorem FillRel_refl (row col : Int) (snd : SoundId) (s : FillState) : FillRel row col snd s s where
  grows := Grows_refl _
  closes p h1 h2 := by rw [h1] at h2; cases h2
  reach root _ _ p h1 h2 := by rw [h1] at h2; cases h2
  plays := ⟨0, by simp⟩

theorem FillRel_trans {row col : Int} {snd : SoundId} {s1 s2 s3 : FillState}
    (h12 : FillRel row col snd s1 s2) (h23 : FillRel row col snd s2 s3) :
    FillRel row col snd s1 s3 where
  grows := Grows_trans h12.grows h23.grows
  closes p h1 h3 hz := by
    by_cases h2 : (s2.1.cells p.1 p.2).revealed = true
    · exact Closed_mono h23.grows (h12.closes p h1 h2 hz)
    · exact h23.closes p (by simpa using h2) h3 (by rw [h12.grows.nearby]; exact hz)
  reach root hr hc p h1 h3 := by
    by_cases h2 : (s2.1.cells p.1 p.2).revealed = true
    · exact h12.reach root hr hc p h1 h2
    · obtain ⟨z, hz, hn⟩ := h23.reach root hr hc p (by simpa using h2) h3
      exact ⟨z, ZeroChain_of_Grows h12.grows hz, hn⟩
  plays := by
    obtain ⟨k1, e1⟩ := h12.plays
    obtain ⟨k2, e2⟩ := h23.plays
    exact ⟨k1 + k2, by rw [e2, e1, List.append_assoc, List.replicate_add]⟩

theorem TargetDone_mono {row col : Int} {d : Int × Int} {s2 s3 : FillState}
    (h : Grows s2.1 s3.1) (ht : TargetDone row col d s2) : TargetDone row col d s3 := by
  intro q h1 h2 hm
  exact h.mono _ _ (ht q h1 h2 (by rw [← h.hasMine]; exact hm))

theorem revealStep_spec (n : Nat) (snd : SoundId) (row col : Int)
    (recurse : FillState → Int → Int → Option FillState)
    (hrec : ∀ (s : FillState) (r c : Int), (hiddenSafeSet s.1).card < n →
      ∃ s2, recurse s r c = some s2 ∧ FillPost r c snd s s2)
    (s : FillState) (d : Int × Int) (hd : d ∈ offsets) (hs : (hiddenSafeSet s.1).card ≤ n) :
    ∃ s2, revealStep recurse snd row col s d = some s2 ∧ FillRel row col snd s s2 ∧
      TargetDone row col d s2 := by
  unfold revealStep
  dsimp only
  by_cases hv : IsValidCell (row + d.1) (col + d.2) = true
  swap
  · refine ⟨s, by simp [hv], FillRel_refl _ _ _ _, ?_⟩
    intro q h1 h2 _
    exact absurd ((IsValidCell_iff _ _).2 ⟨q.1, q.2, h1, h2⟩) hv
  obtain ⟨i, j, hi, hj⟩ := (IsValidCell_iff _ _).1 hv
  have hsame : ∀ q : Pos, ((q.1 : Nat) : Int) = row + d.1 → ((q.2 : Nat) : Int) = col + d.2 →
      q = (i, j) := by
    intro q h1 h2
    apply Prod.ext <;> apply Fin.ext <;> simp only <;> omega
  rw [if_neg (by simp [hv]), ← hi, ← hj, Board.get_coe]
  by_cases hr : (s.1.cells i j).revealed = true
  · refine ⟨s, by simp [hr], FillRel_refl _ _ _ _, ?_⟩
    intro q h1 h2 _
    rw [hsame q h1 h2]
    exact hr
  rw [if_neg hr]
  by_cases hm : (s.1.cells i j).hasMine = true
  · refine ⟨s, by simp [hm], FillRel_refl _ _ _ _, ?_⟩
    intro q h1 h2 hq
    rw [hsame q h1 h2] at hq
    simp [hm] at hq
  rw [if_neg hm]
  have hr' : (s.1.cells i j).revealed = false := by simpa using hr
  have hm' : (s.1.cells i j).hasMine = false := by simpa using hm
  have hg := reveal_grows s.1 (i, j) hm'
  have hlt := reveal_hidden_lt s.1 (i, j) hm' hr'
  dsimp only at hg hlt
  rw [Board.get_coe] at hg hlt
  rw [Board.get_coe]
  generalize hb1 : s.1.set ((i : Nat) : Int) ((j : Nat) : Int)
    { (s.1.cells i j) with revealed := true } = b1 at hg hlt ⊢
  have hb1_at : (b1.cells i j).revealed = true := by
    rw [← hb1, Board.set_cells_pos (q := (i, j))]
    simp
  have hb1_other : ∀ p : Pos, p ≠ (i, j) → b1.cells p.1 p.2 = s.1.cells p.1 p.2 := by
    intro p hp
    rw [← hb1, Board.set_cells_pos (q := (i, j))]
    rw [if_neg hp]
  have hnear : ∀ root : Pos, ((root.1 : Nat) : Int) = row → ((root.2 : Nat) : Int) = col →
      Near root (i, j) := by
    intro root h1 h2
    have := (mem_offsets d).1 hd
    unfold Near
    dsimp only
    omega
  by_cases hz : (b1.cells i j).nearbyMines = 0
  swap
  · rw [if_neg hz]
    refine ⟨_, rfl, ⟨hg, ?_, ?_, ⟨1, rfl⟩⟩, ?_⟩
    · intro p h1 h2 h3
      by_cases hp : p = (i, j)
      · subst hp
        rw [hg.nearby] at hz
        exact absurd h3 hz
      · rw [hb1_other p hp, h1] at h2
        cases h2
    · intro root hr1 hr2 p h1 h2
      by_cases hp : p = (i, j)
      · subst hp
        exact ⟨root, Relation.ReflTransGen.refl, hnear root hr1 hr2⟩
      · rw [hb1_other p hp, h1] at h2
        cases h2
    · intro q h1 h2 _
      rw [hsame q h1 h2]
      exact hb1_at
  rw [if_pos hz]
  obtain ⟨s2, hs2, hrel, hN⟩ := hrec (b1, s.2 ++ [snd]) ((i : Nat) : Int) ((j : Nat) : Int)
    (by dsimp only; omega)
  refine ⟨s2, hs2, ⟨Grows_trans hg hrel.grows, ?_, ?_, ?_⟩, ?_⟩
  · intro p h1 h2 h3
    by_cases hp : p = (i, j)
    · subst hp
      intro q hq hqm
      exact hN q hq hqm
    · refine hrel.closes p ?_ h2 ?_
      · dsimp only
        rw [hb1_other p hp]
        exact h1
      · dsimp only
        rw [hb1_other p hp]
        exact h3
  · intro root hr1 hr2 p h1 h2
    by_cases hp : p = (i, j)
    · subst hp
      exact ⟨root, Relation.ReflTransGen.refl, hnear root hr1 hr2⟩
    · obtain ⟨z, hz1, hz2⟩ := hrel.reach (i, j) rfl rfl p
        (by dsimp only; rw [hb1_other p hp]; exact h1) h2
      refine ⟨z, ?_, hz2⟩
      have hz1' := @ZeroChain_of_Grows s.1 b1 hg _ _ hz1
      refine Relation.ReflTransGen.head ⟨hnear root hr1 hr2, hm', ?_⟩ hz1'
      rw [← hg.nearby]
      exact hz
  · obtain ⟨k, hk⟩ := hrel.plays
    refine ⟨1 + k, ?_⟩
    rw [hk]
    dsimp only
    rw [List.replicate_add, List.append_assoc]
    rfl
  · intro q h1 h2 _
    rw [hsame q h1 h2]
    exact hrel.grows.mono _ _ hb1_at


theorem revealLoop_spec (n : Nat) (snd : SoundId) (row col : Int)
    (recurse : FillState → Int → Int → Option FillState)
    (hrec : ∀ (s : FillState) (r c : Int), (hiddenSafeSet s.1).card < n →
      ∃ s2, recurse s r c = some s2 ∧ FillPost r c snd s s2)
    (ds : List (Int × Int)) (hds : ∀ d ∈ ds, d ∈ offsets) (s : FillState)
    (hs : (hiddenSafeSet s.1).card ≤ n) :
    ∃ s2, ds.foldlM (revealStep recurse snd row col) s = some s2 ∧ FillRel row col snd s s2 ∧
      ∀ d ∈ ds, TargetDone row col d s2 := by
  induction ds generalizing s with
  | nil => exact ⟨s, rfl, FillRel_refl _ _ _ _, by simp⟩
  | cons d ds ih =>
    obtain ⟨s1, h1, hrel1, ht1⟩ :=
      revealStep_spec n snd row col recurse hrec s d (hds d (List.mem_cons_self _ _)) hs
    obtain ⟨s2, h2, hrel2, ht2⟩ := ih (fun e he => hds e (List.mem_cons_of_mem _ he)) s1
      (le_trans hrel1.grows.hidden_le hs)
    refine ⟨s2, ?_, FillRel_trans hrel1 hrel2, ?_⟩
    · rw [List.foldlM_cons, h1]
      exact h2
    · intro e he
      rcases List.mem_cons.1 he with rfl | he
      · exact TargetDone_mono hrel2.grows ht1
      · exact ht2 e he

/-- `Board_RevealEmpty` returns whenever the fuel exceeds the number of cells that
are still hidden and mine-free, and its result satisfies `FillPost`. -/
theorem RevealEmptyFuel_spec (n : Nat) (snd : SoundId) (s : FillState) (row col : Int)
    (hs : (hiddenSafeSet s.1).card < n) :
    ∃ s2, RevealEmptyFuel n snd s row col = some s2 ∧ FillPost row col snd s s2 := by
  induction n generalizing s row col with
  | zero => exact absurd hs (Nat.not_lt_zero _)
  | succ n ih =>
    obtain ⟨s2, h2, hrel, ht⟩ := revealLoop_spec n snd row col (RevealEmptyFuel n snd)
      (fun s r c h => ih s r c h) offsets (fun _ h => h) s (Nat.lt_succ_iff.1 hs)
    refine ⟨s2, h2, hrel, ?_⟩
    intro q hq hm
    refine ht (((q.1 : Nat) : Int) - row, ((q.2 : Nat) : Int) - col) ?_ q ?_ ?_ hm
    · rw [mem_offsets]
      unfold NearAt at hq
      dsimp only
      omega
    · dsimp only; omega
    · dsimp only; omega

theorem foldlM_some_mono {σ α : Type} (f g : σ → α → Option σ)
    (hfg : ∀ s a s2, f s a = some s2 → g s a = some s2) (l : List α) (s s2 : σ)
    (h : l.foldlM f s = some s2) : l.foldlM g s = some s2 := by
  induction l generalizing s with
  | nil => exact h
  | cons a l ih =>
    rw [List.foldlM_cons] at h ⊢
    cases hfa : f s a with
    | none => rw [hfa] at h; cases h
    | some s1 =>
      rw [hfa] at h
      rw [hfg s a s1 hfa]
      exact ih s1 h

theorem revealStep_some_mono (rec1 rec2 : FillState → Int → Int → Option FillState)
    (h12 : ∀ s r c s2, rec1 s r c = some s2 → rec2 s r c = some s2) (snd : SoundId)
    (row col : Int) (s : FillState) (d : Int × Int) (s2 : FillState)
    (h : revealStep rec1 snd row col s d = some s2) : revealStep rec2 snd row col s d = some s2 := by
  unfold revealStep at h ⊢
  dsimp only at h ⊢
  split_ifs at h ⊢ <;> first | exact h | exact h12 _ _ _ _ h

theorem RevealEmptyFuel_succ (n : Nat) (snd : SoundId) (s : FillState) (row col : Int)
    (s2 : FillState) (h : RevealEmptyFuel n snd s row col = some s2) :
    RevealEmptyFuel (n + 1) snd s row col = some s2 := by
  induction n generalizing s row col s2 with
  | zero => cases h
  | succ n ih =>
    rw [RevealEmptyFuel] at h ⊢
    exact foldlM_some_mono _ _
      (fun t a t2 ht => revealStep_some_mono _ _ (fun x r c y hx => ih x r c y hx) snd row col t a t2 ht)
      offsets s s2 h

theorem RevealEmptyFuel_le (n m : Nat) (hnm : n ≤ m) (snd : SoundId) (s : FillState)
    (row col : Int) (s2 : FillState) (h : RevealEmptyFuel n snd s row col = some s2) :
    RevealEmptyFuel m snd s row col = some s2 := by
  induction hnm with
  | refl => exact h
  | step _ ih => exact RevealEmptyFuel_succ _ snd s row col s2 ih

/-- Any fuel above `ROWS * COLS` is enough: the bounded recursion returns, and
returns the board and sounds of `Board_RevealEmpty`. -/
theorem RevealEmptyFuel_enough (fuel : Nat) (hf : ROWS * COLS < fuel) (snd : SoundId) (b : Board)
    (row col : Int) :
    RevealEmptyFuel fuel snd (b, []) row col = some (Board_RevealEmpty b row col snd) := by
  obtain ⟨s2, h2, _⟩ := RevealEmptyFuel_spec (ROWS * COLS + 1) snd (b, []) row col
    (Nat.lt_succ_of_le (hiddenSafe_card_le b))
  have hb : Board_RevealEmpty b row col snd = s2 := by
    unfold Board_RevealEmpty
    rw [h2]
    rfl
  rw [hb]
  exact RevealEmptyFuel_le _ _ hf snd _ row col s2 h2

theorem Board_RevealEmpty_post (b : Board) (row col : Int) (snd : SoundId) :
    FillPost row col snd (b, []) (Board_RevealEmpty b row col snd) := by
  obtain ⟨s2, h2, hpost⟩ := RevealEmptyFuel_spec (ROWS * COLS + 1) snd (b, []) row col
    (Nat.lt_succ_of_le (hiddenSafe_card_le b))
  have hb : Board_RevealEmpty b row col snd = s2 := by
    unfold Board_RevealEmpty
    rw [h2]
    rfl
  rw [hb]
  exact hpost


theorem NearAt_self (p : Pos) : NearAt ((p.1 : Nat) : Int) ((p.2 : Nat) : Int) p := by
  unfold NearAt
  omega

theorem ZeroChain_to_region (b : Board) (x y : Pos) (h : ZeroChain b x y) :
    Relation.ReflTransGen (fun u v => MooreAdj u v ∧ ZeroSafe b v) x y := by
  induction h with
  | refl => exact Relation.ReflTransGen.refl
  | @tail u v _ hstep ih =>
    by_cases huv : u = v
    · rw [← huv]
      exact ih
    · exact Relation.ReflTransGen.tail ih ⟨⟨huv, hstep.1⟩, hstep.2⟩

/-- C2. `Board_RevealEmpty` returns (any fuel above `ROWS * COLS` yields its result)
and only ever turns `revealed` from false to true on cells without a mine:
`hasMine`, `flagged` and `nearbyMines` of every cell are unchanged, the `revealed`
flag of every mine cell is unchanged, and revealed cells stay revealed. -/
theorem C2_RevealEmpty_frame (b : Board) (row col : Int) (snd : SoundId) :
    (∀ fuel : Nat, ROWS * COLS < fuel →
        RevealEmptyFuel fuel snd (b, []) row col = some (Board_RevealEmpty b row col snd)) ∧
      ∀ (i : Fin ROWS) (j : Fin COLS),
        ((Board_RevealEmpty b row col snd).1.cells i j).hasMine = (b.cells i j).hasMine ∧
        ((Board_RevealEmpty b row col snd).1.cells i j).flagged = (b.cells i j).flagged ∧
        ((Board_RevealEmpty b row col snd).1.cells i j).nearbyMines = (b.cells i j).nearbyMines ∧
        ((b.cells i j).hasMine = true →
          ((Board_RevealEmpty b row col snd).1.cells i j).revealed = (b.cells i j).revealed) ∧
        ((b.cells i j).revealed = true →
          ((Board_RevealEmpty b row col snd).1.cells i j).revealed = true) := by
  have hg := (Board_RevealEmpty_post b row col snd).1.grows
  exact ⟨fun fuel hf => RevealEmptyFuel_enough fuel hf snd b row col,
    fun i j => ⟨hg.hasMine i j, hg.flagged i j, hg.nearby i j, hg.mine i j, hg.mono i j⟩⟩

/-- C1. On a board where at most the start cell is revealed, started on an
in-bounds cell without a mine and with `nearbyMines == 0`, `Board_RevealEmpty`
returns, and afterwards a cell is revealed exactly when it holds no mine and is
equal or Moore-adjacent to a cell of the 8-connected zero-count region of the start cell. -/
theorem C1_RevealEmpty_region (b : Board) (start : Pos) (snd : SoundId)
    (hrev : ∀ p : Pos, p ≠ start → (b.cells p.1 p.2).revealed = false)
    (hmine : (b.cells start.1 start.2).hasMine = false)
    (hzero : (b.cells start.1 start.2).nearbyMines = 0) :
    (∀ fuel : Nat, ROWS * COLS < fuel →
        RevealEmptyFuel fuel snd (b, []) ((start.1 : Nat) : Int) ((start.2 : Nat) : Int)
          = some (Board_RevealEmpty b ((start.1 : Nat) : Int) ((start.2 : Nat) : Int) snd)) ∧
      ∀ p : Pos,
        ((Board_RevealEmpty b ((start.1 : Nat) : Int) ((start.2 : Nat) : Int) snd).1.cells
            p.1 p.2).revealed = true ↔
          ((b.cells p.1 p.2).hasMine = false ∧
            ∃ z : Pos, InZeroRegion b start z ∧ (z = p ∨ MooreAdj z p)) := by
  refine ⟨fun fuel hf => RevealEmptyFuel_enough fuel hf snd b _ _, ?_⟩
  obtain ⟨hrel, hN⟩ := Board_RevealEmpty_post b ((start.1 : Nat) : Int) ((start.2 : Nat) : Int) snd
  generalize Board_RevealEmpty b ((start.1 : Nat) : Int) ((start.2 : Nat) : Int) snd = s2 at hrel hN
  have hg := hrel.grows
  dsimp only at hg
  -- every revealed zero-count cell has its whole block revealed
  have hclosed : ∀ y : Pos, (s2.1.cells y.1 y.2).revealed = true → ZeroSafe b y → Closed s2.1 y := by
    intro y hy hzs
    by_cases hys : y = start
    · subst hys
      exact fun q hq hqm => hN q hq hqm
    · exact hrel.closes y (hrev y hys) hy hzs.2
  have hstart : (s2.1.cells start.1 start.2).revealed = true :=
    hN start (NearAt_self start) (by rw [hg.hasMine]; exact hmine)
  have hregion : ∀ z : Pos,
      Relation.ReflTransGen (fun u v => MooreAdj u v ∧ ZeroSafe b v) start z →
        (s2.1.cells z.1 z.2).revealed = true ∧ ZeroSafe b z := by
    intro z hz
    induction hz with
    | refl => exact ⟨hstart, hmine, hzero⟩
    | @tail u v _ hstep ih =>
      refine ⟨?_, hstep.2⟩
      exact hclosed u ih.1 ih.2 v hstep.1.2 (by rw [hg.hasMine]; exact hstep.2.1)
  intro p
  constructor
  · intro hp
    by_cases hps : p = start
    · subst hps
      exact ⟨hmine, p, ⟨⟨hmine, hzero⟩, Relation.ReflTransGen.refl⟩, Or.inl rfl⟩
    · have hpb := hrev p hps
      have hpm : (b.cells p.1 p.2).hasMine = false := by
        by_contra hcon
        have := hg.mine p.1 p.2 (by simpa using hcon)
        rw [hp, hpb] at this
        cases this
      obtain ⟨z, hz1, hz2⟩ := hrel.reach start rfl rfl p hpb hp
      refine ⟨hpm, z, ⟨⟨hmine, hzero⟩, ZeroChain_to_region b start z hz1⟩, ?_⟩
      by_cases hzp : z = p
      · exact Or.inl hzp
      · exact Or.inr ⟨hzp, hz2⟩
  · rintro ⟨hpm, z, ⟨_, hz⟩, hzp⟩
    obtain ⟨hzr, hzs⟩ := hregion z hz
    have hnear : Near z p := by
      rcases hzp with rfl | h
      · exact NearAt_self z
      · exact h.2
    exact hclosed z hzr hzs p hnear (by rw [hg.hasMine]; exact hpm)

theorem C1_RevealEmpty_region_witness :
    ((∀ p : Pos, p ≠ centreCell → (centreBoard.cells p.1 p.2).revealed = false) ∧
      (centreBoard.cells centreCell.1 centreCell.2).hasMine = false ∧
      (centreBoard.cells centreCell.1 centreCell.2).nearbyMines = 0) ∧
    ((∀ fuel : Nat, ROWS * COLS < fuel →
        RevealEmptyFuel fuel SoundId.sNumber (centreBoard, [])
            ((centreCell.1 : Nat) : Int) ((centreCell.2 : Nat) : Int)
          = some (Board_RevealEmpty centreBoard
              ((centreCell.1 : Nat) : Int) ((centreCell.2 : Nat) : Int) SoundId.sNumber)) ∧
      ∀ p : Pos,
        ((Board_RevealEmpty centreBoard ((centreCell.1 : Nat) : Int) ((centreCell.2 : Nat) : Int)
            SoundId.sNumber).1.cells p.1 p.2).revealed = true ↔
          ((centreBoard.cells p.1 p.2).hasMine = false ∧
            ∃ z : Pos, InZeroRegion centreBoard centreCell z ∧ (z = p ∨ MooreAdj z p))) :=
  ⟨⟨fun _ _ => rfl, rfl, by decide⟩,
    C1_RevealEmpty_region centreBoard centreCell SoundId.sNumber (fun _ _ => rfl) rfl (by decide)⟩


/-! ## Adjacency counts -/

theorem Board.get_of_valid (b : Board) (r c : Int) (h : IsValidCell r c = true) :
    ∃ q : Pos, ((q.1 : Nat) : Int) = r ∧ ((q.2 : Nat) : Int) = c ∧ b.get r c = b.cells q.1 q.2 := by
  obtain ⟨i, j, hi, hj⟩ := (IsValidCell_iff r c).1 h
  exact ⟨(i, j), hi, hj, by rw [← hi, ← hj, Board.get_coe]⟩

theorem offsets_nodup : offsets.Nodup := by
  decide

theorem countAround_eq_card (b : Board) (p : Pos) :
    countAround b ((p.1 : Nat) : Int) ((p.2 : Nat) : Int) =
      (Finset.univ.filter fun q : Pos => Near p q ∧ (b.cells q.1 q.2).hasMine = true).card := by
  unfold countAround
  rw [foldl_count_eq (fun d : Int × Int =>
      IsValidCell (((p.1 : Nat) : Int) + d.1) (((p.2 : Nat) : Int) + d.2) &&
        (b.get (((p.1 : Nat) : Int) + d.1) (((p.2 : Nat) : Int) + d.2)).hasMine) offsets 0,
    Nat.zero_add, List.countP_eq_length_filter,
    ← List.toFinset_card_of_nodup (offsets_nodup.filter _)]
  have hp1 := p.1.isLt
  have hp2 := p.2.isLt
  refine Finset.card_nbij' (shiftPos p)
    (fun q => (((q.1 : Nat) : Int) - ((p.1 : Nat) : Int), ((q.2 : Nat) : Int) - ((p.2 : Nat) : Int)))
    ?_ ?_ ?_ ?_
  · intro d hd
    simp only [List.mem_toFinset, List.mem_filter, Bool.and_eq_true] at hd
    obtain ⟨hmem, hv, hm⟩ := hd
    obtain ⟨q, hq1, hq2, hget⟩ := Board.get_of_valid b _ _ hv
    have hq1' := q.1.isLt
    have hq2' := q.2.isLt
    have hmo := (mem_offsets d).1 hmem
    have hsq : shiftPos p d = q := by
      unfold shiftPos
      apply Prod.ext <;> apply Fin.ext <;> simp only [ROWS, COLS] at * <;> omega
    rw [hsq]
    simp only [Finset.mem_filter, Finset.mem_univ, true_and]
    refine ⟨?_, by rw [← hget]; exact hm⟩
    unfold Near
    omega
  · intro q hq
    simp only [Finset.mem_filter, Finset.mem_univ, true_and] at hq
    obtain ⟨hn, hm⟩ := hq
    unfold Near at hn
    simp only [List.mem_toFinset, List.mem_filter, Bool.and_eq_true, mem_offsets]
    have e1 : ((p.1 : Nat) : Int) + (((q.1 : Nat) : Int) - ((p.1 : Nat) : Int)) = ((q.1 : Nat) : Int) := by omega
    have e2 : ((p.2 : Nat) : Int) + (((q.2 : Nat) : Int) - ((p.2 : Nat) : Int)) = ((q.2 : Nat) : Int) := by omega
    rw [e1, e2, Board.get_coe]
    refine ⟨by omega, (IsValidCell_iff _ _).2 ⟨q.1, q.2, rfl, rfl⟩, hm⟩
  · intro d hd
    simp only [List.mem_toFinset, List.mem_filter, Bool.and_eq_true] at hd
    obtain ⟨hmem, hv, hm⟩ := hd
    obtain ⟨q, hq1, hq2, hget⟩ := Board.get_of_valid b _ _ hv
    have hq1' := q.1.isLt
    have hq2' := q.2.isLt
    unfold shiftPos
    apply Prod.ext <;> simp only [ROWS, COLS] at * <;> omega
  · intro q hq
    have hq1' := q.1.isLt
    have hq2' := q.2.isLt
    unfold shiftPos
    apply Prod.ext <;> apply Fin.ext <;> simp only [ROWS, COLS] at * <;> omega

theorem countAround_eq_mineNeighbours (b : Board) (p : Pos) (hp : (b.cells p.1 p.2).hasMine = false) :
    countAround b ((p.1 : Nat) : Int) ((p.2 : Nat) : Int) = mineNeighbours b p := by
  rw [countAround_eq_card]
  unfold mineNeighbours MooreAdj
  congr 1
  ext q
  simp only [Finset.mem_filter, Finset.mem_univ, true_and]
  constructor
  · rintro ⟨hn, hm⟩
    refine ⟨⟨?_, hn⟩, hm⟩
    rintro rfl
    rw [hp] at hm
    cases hm
  · rintro ⟨⟨_, hn⟩, hm⟩
    exact ⟨hn, hm⟩


theorem Board.get_hasMine_congr (b1 b2 : Board)
    (h : ∀ (i : Fin ROWS) (j : Fin COLS), (b2.cells i j).hasMine = (b1.cells i j).hasMine)
    (r c : Int) : (b2.get r c).hasMine = (b1.get r c).hasMine := by
  unfold Board.get
  split
  · exact h _ _
  · rfl

theorem countAround_congr (b1 b2 : Board)
    (h : ∀ (i : Fin ROWS) (j : Fin COLS), (b2.cells i j).hasMine = (b1.cells i j).hasMine)
    (r c : Int) : countAround b2 r c = countAround b1 r c := by
  unfold countAround
  congr 1
  funext count d
  dsimp only
  rw [Board.get_hasMine_congr b1 b2 h]

theorem countStep_cells (b : Board) (p : Pos) (i : Fin ROWS) (j : Fin COLS) :
    (countStep b p).cells i j =
      if (i, j) = p ∧ (b.cells i j).hasMine = false then
        { b.cells i j with
          nearbyMines := (countAround b ((i : Nat) : Int) ((j : Nat) : Int) : Int) }
      else b.cells i j := by
  unfold countStep
  dsimp only
  rw [Board.get_coe]
  by_cases hm : (b.cells p.1 p.2).hasMine = true
  · rw [if_pos hm]
    by_cases hp : (i, j) = p
    · subst hp
      simp [hm]
    · simp [hp]
  · rw [if_neg hm, Board.set_cells_pos]
    by_cases hp : (i, j) = p
    · subst hp
      simp at hm
      simp [hm]
    · simp [hp]

theorem countLoop_cells (l : List Pos) (b : Board) (i : Fin ROWS) (j : Fin COLS) :
    (l.foldl countStep b).cells i j =
      if (i, j) ∈ l ∧ (b.cells i j).hasMine = false then
        { b.cells i j with
          nearbyMines := (countAround b ((i : Nat) : Int) ((j : Nat) : Int) : Int) }
      else b.cells i j := by
  induction l generalizing b with
  | nil => simp
  | cons p l ih =>
    rw [List.foldl_cons, ih]
    have hmine : ∀ (i : Fin ROWS) (j : Fin COLS),
        ((countStep b p).cells i j).hasMine = (b.cells i j).hasMine := by
      intro i j
      rw [countStep_cells]
      split <;> rfl
    rw [hmine, countAround_congr b (countStep b p) hmine, countStep_cells]
    by_cases hm : (b.cells i j).hasMine = false
    · by_cases hl : (i, j) ∈ l <;> by_cases hp : (i, j) = p <;> simp [hl, hm, hp]
    · simp [hm]

/-- The board after `Board_CountNearbyMines`, cell by cell. -/
theorem Board_CountNearbyMines_cells (b : Board) (i : Fin ROWS) (j : Fin COLS) :
    (Board_CountNearbyMines b).cells i j =
      if (b.cells i j).hasMine = false then
        { b.cells i j with
          nearbyMines := (countAround b ((i : Nat) : Int) ((j : Nat) : Int) : Int) }
      else b.cells i j := by
  unfold Board_CountNearbyMines
  rw [countLoop_cells, if_congr (and_iff_right (mem_allCells (i, j))) rfl rfl]

/-- C3. `Board_CountNearbyMines` leaves the mine layout of the given board as it is,
and afterwards every cell without a mine has `nearbyMines` equal to the number of
mine-bearing cells among its in-bounds Moore neighbours, counted on the given board
(and so also on the resulting board, which has the same mines). -/
theorem C3_CountNearbyMines_exact (b : Board) (i : Fin ROWS) (j : Fin COLS)
    (h : (b.cells i j).hasMine = false) :
    (∀ (r : Fin ROWS) (c : Fin COLS),
        ((Board_CountNearbyMines b).cells r c).hasMine = (b.cells r c).hasMine) ∧
      ((Board_CountNearbyMines b).cells i j).nearbyMines = (mineNeighbours b (i, j) : Int) ∧
      ((Board_CountNearbyMines b).cells i j).nearbyMines
        = (mineNeighbours (Board_CountNearbyMines b) (i, j) : Int) := by
  have hmine : ∀ (r : Fin ROWS) (c : Fin COLS),
      ((Board_CountNearbyMines b).cells r c).hasMine = (b.cells r c).hasMine := by
    intro r c
    rw [Board_CountNearbyMines_cells]
    split <;> rfl
  have hn : mineNeighbours (Board_CountNearbyMines b) (i, j) = mineNeighbours b (i, j) := by
    unfold mineNeighbours
    simp only [hmine]
  have hexact : ((Board_CountNearbyMines b).cells i j).nearbyMines
      = (mineNeighbours b (i, j) : Int) := by
    rw [← countAround_eq_mineNeighbours b (i, j) h, Board_CountNearbyMines_cells, if_pos h]
  exact ⟨hmine, hexact, by rw [hn]; exact hexact⟩

theorem C3_CountNearbyMines_exact_witness :
    ((tenMineGame.board.cells 1 1).hasMine = false ∧ mineNeighbours tenMineGame.board (1, 1) = 4) ∧
      ((∀ (r : Fin ROWS) (c : Fin COLS),
          ((Board_CountNearbyMines tenMineGame.board).cells r c).hasMine
            = (tenMineGame.board.cells r c).hasMine) ∧
        ((Board_CountNearbyMines tenMineGame.board).cells 1 1).nearbyMines
          = (mineNeighbours tenMineGame.board (1, 1) : Int) ∧
        ((Board_CountNearbyMines tenMineGame.board).cells 1 1).nearbyMines
          = (mineNeighbours (Board_CountNearbyMines tenMineGame.board) (1, 1) : Int)) :=
  ⟨⟨rfl, rfl⟩, C3_CountNearbyMines_exact tenMineGame.board 1 1 rfl⟩

/-! ## Mine placement -/

theorem mineSet_place (b : Board) (q : Pos) (hq : (b.cells q.1 q.2).hasMine = false) :
    (mineSet (b.set ((q.1 : Nat) : Int) ((q.2 : Nat) : Int)
      { b.get ((q.1 : Nat) : Int) ((q.2 : Nat) : Int) with hasMine := true })).card
      = (mineSet b).card + 1 := by
  have hins : mineSet (b.set ((q.1 : Nat) : Int) ((q.2 : Nat) : Int)
      { b.get ((q.1 : Nat) : Int) ((q.2 : Nat) : Int) with hasMine := true })
      = insert q (mineSet b) := by
    ext p
    simp only [mineSet, Finset.mem_filter, Finset.mem_univ, true_and, Finset.mem_insert,
      Board.set_cells_pos]
    by_cases hp : p = q
    · subst hp
      simp
    · simp [hp]
  rw [hins, Finset.card_insert_of_not_mem]
  simp [mineSet, hq]

theorem placeMinesLoop_spec (draws : List Nat) (placed : Nat) (b b2 : Board)
    (h : placeMinesLoop draws placed b = some b2) (hp : placed ≤ MINES) :
    (mineSet b2).card + placed = (mineSet b).card + MINES ∧
      ∀ (i : Fin ROWS) (j : Fin COLS),
        (b2.cells i j).revealed = (b.cells i j).revealed ∧
        (b2.cells i j).flagged = (b.cells i j).flagged ∧
        (b2.cells i j).nearbyMines = (b.cells i j).nearbyMines := by
  induction draws, placed, b using placeMinesLoop.induct with
  | case1 placed board hlt d1 d2 rest r c hfree ih =>
    rw [placeMinesLoop, if_pos hlt] at h
    simp only at h
    rw [if_pos hfree] at h
    obtain ⟨hcard, hframe⟩ := ih h hlt
    have hq : (board.cells (drawPos d1 d2).1 (drawPos d1 d2).2).hasMine = false := by
      have := hfree
      rw [show r = (((drawPos d1 d2).1 : Nat) : Int) from rfl,
        show c = (((drawPos d1 d2).2 : Nat) : Int) from rfl, Board.get_coe] at this
      simpa using this
    have hset := mineSet_place board (drawPos d1 d2) hq
    refine ⟨?_, ?_⟩
    · have : (mineSet (board.set r c { board.get r c with hasMine := true })).card
          = (mineSet board).card + 1 := hset
      omega
    · intro i j
      have hf := hframe i j
      rw [show r = (((drawPos d1 d2).1 : Nat) : Int) from rfl,
        show c = (((drawPos d1 d2).2 : Nat) : Int) from rfl, Board.set_cells_pos,
        Board.get_coe] at hf
      by_cases hij : (i, j) = drawPos d1 d2
      · rw [if_pos hij] at hf
        rw [← hij] at hf
        exact hf
      · rw [if_neg hij] at hf
        exact hf
  | case2 placed board hlt d1 d2 rest r c hfree ih =>
    rw [placeMinesLoop, if_pos hlt] at h
    simp only at h
    rw [if_neg hfree] at h
    exact ih h hp
  | case3 draws placed board hlt hshape =>
    rw [placeMinesLoop, if_pos hlt] at h
    · cases h
    · exact hshape
  | case4 draws placed board hge =>
    unfold placeMinesLoop at h
    rw [if_neg hge] at h
    cases h
    have hpl : placed = MINES := by omega
    exact ⟨by rw [hpl], fun _ _ => ⟨rfl, rfl, rfl⟩⟩


theorem mineSet_Board_Init (b : Board) : mineSet (Board_Init b) = ∅ := by
  ext p
  simp [mineSet, Board_Init]

/-- C4. Whenever the placement loop finishes on the given draws, the board that
`Board_PlaceMines` leaves behind on a `Board_Init` board holds exactly `MINES` mines
(a set of in-bounds positions, so no duplicates), and `revealed`, `flagged` and
`nearbyMines` are as `Board_Init` left them. -/
theorem C4_PlaceMines_exact (b0 : Board) (draws : List Nat) (b2 : Board)
    (h : Board_PlaceMines draws (Board_Init b0) = some b2) :
    (mineSet b2).card = MINES ∧
      ∀ (i : Fin ROWS) (j : Fin COLS),
        (b2.cells i j).revealed = ((Board_Init b0).cells i j).revealed ∧
        (b2.cells i j).flagged = ((Board_Init b0).cells i j).flagged ∧
        (b2.cells i j).nearbyMines = ((Board_Init b0).cells i j).nearbyMines := by
  obtain ⟨hcard, hframe⟩ := placeMinesLoop_spec draws 0 (Board_Init b0) b2 h (Nat.zero_le _)
  rw [mineSet_Board_Init, Finset.card_empty] at hcard
  exact ⟨by omega, hframe⟩

theorem C4_PlaceMines_exact_witness :
    Board_PlaceMines sampleDraws (Board_Init centreBoard) = some sampleMined ∧
      ((mineSet sampleMined).card = MINES ∧
        ∀ (i : Fin ROWS) (j : Fin COLS),
          (sampleMined.cells i j).revealed = ((Board_Init centreBoard).cells i j).revealed ∧
          (sampleMined.cells i j).flagged = ((Board_Init centreBoard).cells i j).flagged ∧
          (sampleMined.cells i j).nearbyMines = ((Board_Init centreBoard).cells i j).nearbyMines) :=
  ⟨rfl, C4_PlaceMines_exact centreBoard sampleDraws sampleMined rfl⟩


/-! ## The handlers of game.c -/

theorem revealMineStep_cells (b : Board) (p : Pos) (i : Fin ROWS) (j : Fin COLS) :
    (revealMineStep b p).cells i j =
      if (i, j) = p ∧ (b.cells i j).hasMine = true then { b.cells i j with revealed := true }
      else b.cells i j := by
  unfold revealMineStep
  dsimp only
  rw [Board.get_coe]
  by_cases hm : (b.cells p.1 p.2).hasMine = true
  · rw [if_pos hm, Board.set_cells_pos]
    by_cases hp : (i, j) = p
    · subst hp
      simp [hm]
    · simp [hp]
  · rw [if_neg hm]
    by_cases hp : (i, j) = p
    · subst hp
      simp [hm]
    · simp [hp]

theorem revealMineLoop_cells (l : List Pos) (b : Board) (i : Fin ROWS) (j : Fin COLS) :
    (l.foldl revealMineStep b).cells i j =
      if (i, j) ∈ l ∧ (b.cells i j).hasMine = true then { b.cells i j with revealed := true }
      else b.cells i j := by
  induction l generalizing b with
  | nil => simp
  | cons p l ih =>
    rw [List.foldl_cons, ih, revealMineStep_cells]
    by_cases hm : (b.cells i j).hasMine = true <;> by_cases hl : (i, j) ∈ l <;>
      by_cases hp : (i, j) = p <;> simp [hl, hm, hp]

/-- The board after `Board_RevealAllMines`, cell by cell. -/
theorem Board_RevealAllMines_cells (b : Board) (i : Fin ROWS) (j : Fin COLS) :
    (Board_RevealAllMines b).cells i j =
      if (b.cells i j).hasMine = true then { b.cells i j with revealed := true }
      else b.cells i j := by
  unfold Board_RevealAllMines
  rw [revealMineLoop_cells, if_congr (and_iff_right (mem_allCells (i, j))) rfl rfl]

theorem GetMouseCell_some (x y r c : Int) (h : GetMouseCell x y = some (r, c)) :
    ∃ q : Pos, ((q.1 : Nat) : Int) = r ∧ ((q.2 : Nat) : Int) = c := by
  unfold GetMouseCell at h
  split at h
  · cases h
  · rename_i hcond
    simp only [Option.some.injEq, Prod.mk.injEq] at h
    obtain ⟨rfl, rfl⟩ := h
    simp only [Bool.or_eq_true, decide_eq_true_eq, not_or, not_lt, not_le] at hcond
    refine ⟨(⟨y.toNat, by omega⟩, ⟨x.toNat, by omega⟩), ?_, ?_⟩ <;> simp <;> omega

theorem revealAt_cells (b : Board) (q : Pos) (i : Fin ROWS) (j : Fin COLS) :
    (revealAt b q).cells i j =
      if (i, j) = q then { b.cells i j with revealed := true } else b.cells i j := by
  unfold revealAt
  rw [Board.set_cells_pos, Board.get_coe]
  by_cases h : (i, j) = q
  · subst h
    simp
  · simp [h]

theorem revealAt_get (b : Board) (q : Pos) :
    (revealAt b q).get ((q.1 : Nat) : Int) ((q.2 : Nat) : Int)
      = { b.cells q.1 q.2 with revealed := true } := by
  rw [Board.get_coe, revealAt_cells, if_pos rfl]

theorem Board.set_get_self (b : Board) (q : Pos) (v : Cell) :
    (b.set ((q.1 : Nat) : Int) ((q.2 : Nat) : Int) v).get ((q.1 : Nat) : Int) ((q.2 : Nat) : Int)
      = v := by
  rw [Board.get_coe, Board.set_cells_pos, if_pos rfl]

theorem HandleLeftClick_blocked (g : Game) (q : Pos)
    (h : (g.board.cells q.1 q.2).flagged = true ∨ (g.board.cells q.1 q.2).revealed = true) :
    HandleLeftClick g ((q.1 : Nat) : Int) ((q.2 : Nat) : Int) = (g, []) := by
  unfold HandleLeftClick
  rw [Board.get_coe, if_pos (by simpa using h)]

theorem HandleLeftClick_mine (g : Game) (q : Pos)
    (hf : (g.board.cells q.1 q.2).flagged = false) (hr : (g.board.cells q.1 q.2).revealed = false)
    (hm : (g.board.cells q.1 q.2).hasMine = true) :
    HandleLeftClick g ((q.1 : Nat) : Int) ((q.2 : Nat) : Int) =
      ({ board := Board_RevealAllMines (revealAt g.board q)
         gameOver := true
         win := g.win
         playedBoomSound := true
         playedGameOverSound := true
         playedWinSound := g.playedWinSound },
       (if g.playedBoomSound then [] else [SoundId.sBoom]) ++
         (if g.playedGameOverSound then [] else [SoundId.sOver])) := by
  unfold HandleLeftClick revealAt
  rw [Board.get_coe, if_neg (by simp [hf, hr])]
  dsimp only
  rw [Board.set_get_self]
  rw [if_pos hm]
  cases hb : g.playedBoomSound <;> cases ho : g.playedGameOverSound <;> simp

theorem HandleLeftClick_zero (g : Game) (q : Pos)
    (hf : (g.board.cells q.1 q.2).flagged = false) (hr : (g.board.cells q.1 q.2).revealed = false)
    (hm : (g.board.cells q.1 q.2).hasMine = false)
    (hz : (g.board.cells q.1 q.2).nearbyMines = 0) :
    HandleLeftClick g ((q.1 : Nat) : Int) ((q.2 : Nat) : Int) =
      ({ g with board := (Board_RevealEmpty (revealAt g.board q)
            ((q.1 : Nat) : Int) ((q.2 : Nat) : Int) SoundId.sNumber).1 },
       SoundId.sNumber :: (Board_RevealEmpty (revealAt g.board q)
            ((q.1 : Nat) : Int) ((q.2 : Nat) : Int) SoundId.sNumber).2) := by
  unfold HandleLeftClick revealAt
  rw [Board.get_coe, if_neg (by simp [hf, hr])]
  dsimp only
  rw [Board.set_get_self]
  rw [if_neg (by simp [hm]), if_pos hz]
  rfl

theorem HandleLeftClick_number (g : Game) (q : Pos)
    (hf : (g.board.cells q.1 q.2).flagged = false) (hr : (g.board.cells q.1 q.2).revealed = false)
    (hm : (g.board.cells q.1 q.2).hasMine = false)
    (hz : (g.board.cells q.1 q.2).nearbyMines ≠ 0) :
    HandleLeftClick g ((q.1 : Nat) : Int) ((q.2 : Nat) : Int) =
      ({ g with board := revealAt g.board q }, [SoundId.sNumber]) := by
  unfold HandleLeftClick revealAt
  rw [Board.get_coe, if_neg (by simp [hf, hr])]
  dsimp only
  rw [Board.set_get_self]
  rw [if_neg (by simp [hm]), if_neg hz]

theorem HandleRightClick_eq (g : Game) (q : Pos) :
    HandleRightClick g ((q.1 : Nat) : Int) ((q.2 : Nat) : Int) =
      if (g.board.cells q.1 q.2).revealed = true then (g, [])
      else
        ({ g with board := (g.board.set ((q.1 : Nat) : Int) ((q.2 : Nat) : Int)
              { g.board.cells q.1 q.2 with flagged := !(g.board.cells q.1 q.2).flagged }) },
          [SoundId.sFlag]) := by
  unfold HandleRightClick
  rw [Board.get_coe]


/-! ## Boards that agree on what the win check counts -/

theorem SafeSame.count_eq {b1 b2 : Board} (h : SafeSame b1 b2) :
    Board_CountRevealedSafe b2 = Board_CountRevealedSafe b1 := by
  rw [Board_CountRevealedSafe_eq, Board_CountRevealedSafe_eq]
  congr 1
  ext p
  simp only [revealedSafeSet, Finset.mem_filter, Finset.mem_univ, true_and]
  obtain ⟨h1, h2⟩ := h p.1 p.2
  constructor
  · rintro ⟨hr, hm⟩
    rw [h1] at hm
    exact ⟨by rw [← h2 hm]; exact hr, hm⟩
  · rintro ⟨hr, hm⟩
    exact ⟨by rw [h2 hm]; exact hr, by rw [h1]; exact hm⟩

theorem SafeSame_mineClick (b : Board) (q : Pos) (hm : (b.cells q.1 q.2).hasMine = true) :
    SafeSame b (Board_RevealAllMines (revealAt b q)) := by
  intro i j
  rw [Board_RevealAllMines_cells, revealAt_cells]
  by_cases hq : (i, j) = q
  · subst hq
    simp [hm]
  · by_cases hij : (b.cells i j).hasMine = true <;> simp [hq, hij]

theorem SafeSame_flag (b : Board) (q : Pos) (v : Bool) :
    SafeSame b (b.set ((q.1 : Nat) : Int) ((q.2 : Nat) : Int)
      { b.cells q.1 q.2 with flagged := v }) := by
  intro i j
  rw [Board.set_cells_pos]
  by_cases hq : (i, j) = q
  · subst hq
    simp
  · simp [hq]

/-! ## What the handlers do to the terminal flags -/

theorem HandleLeftClick_flags (g : Game) (q : Pos) :
    (HandleLeftClick g ((q.1 : Nat) : Int) ((q.2 : Nat) : Int)).1.win = g.win ∧
      ((HandleLeftClick g ((q.1 : Nat) : Int) ((q.2 : Nat) : Int)).1.gameOver = g.gameOver ∨
        ((HandleLeftClick g ((q.1 : Nat) : Int) ((q.2 : Nat) : Int)).1.gameOver = true ∧
          Board_CountRevealedSafe (HandleLeftClick g ((q.1 : Nat) : Int) ((q.2 : Nat) : Int)).1.board
            = Board_CountRevealedSafe g.board)) := by
  by_cases hblk : (g.board.cells q.1 q.2).flagged = true ∨ (g.board.cells q.1 q.2).revealed = true
  · rw [HandleLeftClick_blocked g q hblk]
    exact ⟨rfl, Or.inl rfl⟩
  · have hf : (g.board.cells q.1 q.2).flagged = false := by
      simpa using fun h => hblk (Or.inl h)
    have hr : (g.board.cells q.1 q.2).revealed = false := by
      simpa using fun h => hblk (Or.inr h)
    by_cases hm : (g.board.cells q.1 q.2).hasMine = true
    · rw [HandleLeftClick_mine g q hf hr hm]
      refine ⟨rfl, Or.inr ⟨rfl, ?_⟩⟩
      dsimp only
      exact (SafeSame_mineClick g.board q hm).count_eq
    · have hm' : (g.board.cells q.1 q.2).hasMine = false := by simpa using hm
      by_cases hz : (g.board.cells q.1 q.2).nearbyMines = 0
      · rw [HandleLeftClick_zero g q hf hr hm' hz]
        exact ⟨rfl, Or.inl rfl⟩
      · rw [HandleLeftClick_number g q hf hr hm' hz]
        exact ⟨rfl, Or.inl rfl⟩

theorem HandleRightClick_flags (g : Game) (q : Pos) :
    (HandleRightClick g ((q.1 : Nat) : Int) ((q.2 : Nat) : Int)).1.win = g.win ∧
      (HandleRightClick g ((q.1 : Nat) : Int) ((q.2 : Nat) : Int)).1.gameOver = g.gameOver ∧
      SafeSame g.board (HandleRightClick g ((q.1 : Nat) : Int) ((q.2 : Nat) : Int)).1.board := by
  rw [HandleRightClick_eq]
  split
  · exact ⟨rfl, rfl, fun _ _ => ⟨rfl, fun _ => rfl⟩⟩
  · exact ⟨rfl, rfl, SafeSame_flag g.board q _⟩

theorem leftPhase_cases (g : Game) (inp : FrameInput) :
    leftPhase g inp = (g, []) ∨
      ∃ q : Pos, inp.leftPressed = true ∧
        GetMouseCell inp.leftX inp.leftY = some (((q.1 : Nat) : Int), ((q.2 : Nat) : Int)) ∧
        leftPhase g inp = HandleLeftClick g ((q.1 : Nat) : Int) ((q.2 : Nat) : Int) := by
  unfold leftPhase
  by_cases hp : inp.leftPressed = true
  · rw [if_pos hp]
    cases hc : GetMouseCell inp.leftX inp.leftY with
    | none => exact Or.inl rfl
    | some rc =>
      obtain ⟨r, c⟩ := rc
      obtain ⟨q, rfl, rfl⟩ := GetMouseCell_some _ _ _ _ hc
      exact Or.inr ⟨q, hp, rfl, rfl⟩
  · rw [if_neg hp]
    exact Or.inl rfl

theorem rightPhase_cases (g : Game) (inp : FrameInput) :
    rightPhase g inp = (g, []) ∨
      ∃ q : Pos, inp.rightPressed = true ∧
        GetMouseCell inp.rightX inp.rightY = some (((q.1 : Nat) : Int), ((q.2 : Nat) : Int)) ∧
        rightPhase g inp = HandleRightClick g ((q.1 : Nat) : Int) ((q.2 : Nat) : Int) := by
  unfold rightPhase
  by_cases hp : inp.rightPressed = true
  · rw [if_pos hp]
    cases hc : GetMouseCell inp.rightX inp.rightY with
    | none => exact Or.inl rfl
    | some rc =>
      obtain ⟨r, c⟩ := rc
      obtain ⟨q, rfl, rfl⟩ := GetMouseCell_some _ _ _ _ hc
      exact Or.inr ⟨q, hp, rfl, rfl⟩
  · rw [if_neg hp]
    exact Or.inl rfl

theorem CheckWinCondition_flags (g : Game) :
    (CheckWinCondition g).1.board = g.board ∧ (CheckWinCondition g).1.gameOver = g.gameOver ∧
      ((CheckWinCondition g).1.win = true ↔
        (g.win = true ∨ Board_CountRevealedSafe g.board = ROWS * COLS - MINES)) := by
  unfold CheckWinCondition
  by_cases hc : Board_CountRevealedSafe g.board = ROWS * COLS - MINES
  · rw [if_pos hc]
    dsimp only
    split_ifs <;> exact ⟨rfl, rfl, ⟨fun _ => Or.inr hc, fun _ => rfl⟩⟩
  · rw [if_neg hc]
    exact ⟨rfl, rfl, ⟨fun h => Or.inl h, fun h => h.elim id (fun h2 => absurd h2 hc)⟩⟩

theorem HandleDeferredSounds_flags (g : Game) :
    (HandleDeferredSounds g).1.board = g.board ∧ (HandleDeferredSounds g).1.gameOver = g.gameOver ∧
      (HandleDeferredSounds g).1.win = g.win := by
  unfold HandleDeferredSounds
  dsimp only
  split_ifs <;> exact ⟨rfl, rfl, rfl⟩

theorem Game_Update_terminal (g : Game) (inp : FrameInput)
    (h : g.gameOver = true ∨ g.win = true) : Game_Update g inp = HandleDeferredSounds g := by
  unfold Game_Update
  rw [if_neg]
  rcases h with h | h <;> simp [h]

theorem Game_Update_active (g : Game) (inp : FrameInput)
    (ho : g.gameOver = false) (hw : g.win = false) :
    Game_Update g inp =
      ((CheckWinCondition (rightPhase (leftPhase g inp).1 inp).1).1,
        (leftPhase g inp).2 ++ (rightPhase (leftPhase g inp).1 inp).2 ++
          (CheckWinCondition (rightPhase (leftPhase g inp).1 inp).1).2) := by
  unfold Game_Update
  rw [if_pos (by simp [ho, hw])]


/-! ## The freshly initialised game -/

theorem Game_Init_eq (g : Game) (draws : List Nat) (g0 : Game) (h : Game_Init g draws = some g0) :
    ∃ placed : Board, Board_PlaceMines draws (Board_Init g.board) = some placed ∧
      g0 = { board := Board_CountNearbyMines placed
             gameOver := false
             win := false
             playedBoomSound := false
             playedGameOverSound := false
             playedWinSound := false } := by
  unfold Game_Init at h
  cases hp : Board_PlaceMines draws (Board_Init g.board) with
  | none => rw [hp] at h; cases h
  | some placed =>
    rw [hp] at h
    simp only [Option.some.injEq] at h
    exact ⟨placed, rfl, h.symm⟩

theorem Game_Init_flags (g : Game) (draws : List Nat) (g0 : Game)
    (h : Game_Init g draws = some g0) :
    g0.gameOver = false ∧ g0.win = false ∧ g0.playedBoomSound = false ∧
      g0.playedGameOverSound = false ∧ g0.playedWinSound = false := by
  obtain ⟨placed, _, rfl⟩ := Game_Init_eq g draws g0 h
  exact ⟨rfl, rfl, rfl, rfl, rfl⟩

theorem Game_Init_hidden (g : Game) (draws : List Nat) (g0 : Game)
    (h : Game_Init g draws = some g0) (i : Fin ROWS) (j : Fin COLS) :
    (g0.board.cells i j).revealed = false ∧ (g0.board.cells i j).flagged = false := by
  obtain ⟨placed, hp, rfl⟩ := Game_Init_eq g draws g0 h
  obtain ⟨_, hframe⟩ := placeMinesLoop_spec draws 0 (Board_Init g.board) placed hp (Nat.zero_le _)
  obtain ⟨h1, h2, _⟩ := hframe i j
  dsimp only
  rw [Board_CountNearbyMines_cells]
  split <;> exact ⟨h1, h2⟩

theorem count_zero_of_hidden (b : Board)
    (h : ∀ (i : Fin ROWS) (j : Fin COLS), (b.cells i j).revealed = false) :
    Board_CountRevealedSafe b = 0 := by
  rw [Board_CountRevealedSafe_eq, Finset.card_eq_zero]
  ext p
  simp [revealedSafeSet, h]

/-! ## Terminal flags -/

theorem FlagsInv_init (g : Game) (draws : List Nat) (g0 : Game) (h : Game_Init g draws = some g0) :
    FlagsInv g0 := by
  have hc := count_zero_of_hidden g0.board (fun i j => (Game_Init_hidden g draws g0 h i j).1)
  obtain ⟨placed, _, rfl⟩ := Game_Init_eq g draws g0 h
  refine ⟨fun _ => rfl, fun _ _ => ?_⟩
  rw [hc]
  decide

theorem leftPhase_flags (g : Game) (inp : FrameInput) :
    (leftPhase g inp).1.win = g.win ∧
      ((leftPhase g inp).1.gameOver = g.gameOver ∨
        ((leftPhase g inp).1.gameOver = true ∧
          Board_CountRevealedSafe (leftPhase g inp).1.board = Board_CountRevealedSafe g.board)) := by
  rcases leftPhase_cases g inp with h | ⟨q, _, _, h⟩
  · rw [h]
    exact ⟨rfl, Or.inl rfl⟩
  · rw [h]
    exact HandleLeftClick_flags g q

theorem rightPhase_flags (g : Game) (inp : FrameInput) :
    (rightPhase g inp).1.win = g.win ∧ (rightPhase g inp).1.gameOver = g.gameOver ∧
      SafeSame g.board (rightPhase g inp).1.board := by
  rcases rightPhase_cases g inp with h | ⟨q, _, _, h⟩
  · rw [h]
    exact ⟨rfl, rfl, fun _ _ => ⟨rfl, fun _ => rfl⟩⟩
  · rw [h]
    exact HandleRightClick_flags g q

theorem FlagsInv_frame (g : Game) (inp : FrameInput) (h : FlagsInv g) :
    FlagsInv (Game_Update g inp).1 := by
  by_cases ht : g.gameOver = true ∨ g.win = true
  · rw [Game_Update_terminal g inp ht]
    obtain ⟨hb, ho, hw⟩ := HandleDeferredSounds_flags g
    unfold FlagsInv
    rw [hb, ho, hw]
    exact h
  · have ho : g.gameOver = false := by simpa using fun hh => ht (Or.inl hh)
    have hw : g.win = false := by simpa using fun hh => ht (Or.inr hh)
    rw [Game_Update_active g inp ho hw]
    dsimp only
    obtain ⟨hl1, hl2⟩ := leftPhase_flags g inp
    obtain ⟨hr1, hr2, hr3⟩ := rightPhase_flags (leftPhase g inp).1 inp
    obtain ⟨hc1, hc2, hc3⟩ := CheckWinCondition_flags (rightPhase (leftPhase g inp).1 inp).1
    have hcount := hr3.count_eq
    unfold FlagsInv
    rw [hc1, hc2, hr2]
    have hwin2 : (rightPhase (leftPhase g inp).1 inp).1.win = false := by rw [hr1, hl1, hw]
    constructor
    · intro hover
      rcases hl2 with hl2 | ⟨_, hl2⟩
      · rw [hl2, ho] at hover
        cases hover
      · have hne := h.2 ho hw
        by_contra hcon
        have := hc3.1 (by simpa using hcon)
        rcases this with hh | hh
        · rw [hwin2] at hh
          cases hh
        · rw [hcount, hl2] at hh
          exact hne hh
    · intro _ hwin3 hcnt
      have := hc3.2 (Or.inr hcnt)
      rw [this] at hwin3
      cases hwin3

theorem FlagsInv_reachable (g : Game) (hg : Reachable g) : FlagsInv g := by
  induction hg with
  | init g draws g0 h => exact FlagsInv_init g draws g0 h
  | frame g inp _ ih => exact FlagsInv_frame g inp ih


/-! ## One-shot sounds -/

theorem Spends_refl (g : Game) : Spends g (g, []) := by
  simp [Spends]

theorem Spends.seq {g : Game} {r1 r2 : Game × List SoundId} (h1 : Spends g r1)
    (h2 : Spends r1.1 r2) : Spends g (r2.1, r1.2 ++ r2.2) := by
  unfold Spends at *
  simp only [List.count_append]
  omega

theorem Board_RevealEmpty_plays (b : Board) (row col : Int) (snd : SoundId) :
    ∃ k : Nat, (Board_RevealEmpty b row col snd).2 = List.replicate k snd := by
  obtain ⟨k, hk⟩ := (Board_RevealEmpty_post b row col snd).1.plays
  exact ⟨k, by rw [hk]; rfl⟩

theorem HandleLeftClick_spends (g : Game) (q : Pos) :
    Spends g (HandleLeftClick g ((q.1 : Nat) : Int) ((q.2 : Nat) : Int)) := by
  by_cases hblk : (g.board.cells q.1 q.2).flagged = true ∨ (g.board.cells q.1 q.2).revealed = true
  · rw [HandleLeftClick_blocked g q hblk]
    exact Spends_refl g
  · have hf : (g.board.cells q.1 q.2).flagged = false := by
      simpa using fun h => hblk (Or.inl h)
    have hr : (g.board.cells q.1 q.2).revealed = false := by
      simpa using fun h => hblk (Or.inr h)
    by_cases hm : (g.board.cells q.1 q.2).hasMine = true
    · rw [HandleLeftClick_mine g q hf hr hm]
      cases hb : g.playedBoomSound <;> cases ho : g.playedGameOverSound <;>
        simp [Spends, boomLeft, overLeft, winLeft, hb, ho]
    · have hm' : (g.board.cells q.1 q.2).hasMine = false := by simpa using hm
      by_cases hz : (g.board.cells q.1 q.2).nearbyMines = 0
      · rw [HandleLeftClick_zero g q hf hr hm' hz]
        obtain ⟨k, hk⟩ := Board_RevealEmpty_plays (revealAt g.board q)
          ((q.1 : Nat) : Int) ((q.2 : Nat) : Int) SoundId.sNumber
        rw [hk]
        simp [Spends, boomLeft, overLeft, winLeft, List.count_replicate]
      · rw [HandleLeftClick_number g q hf hr hm' hz]
        simp [Spends, boomLeft, overLeft, winLeft]

theorem HandleRightClick_spends (g : Game) (q : Pos) :
    Spends g (HandleRightClick g ((q.1 : Nat) : Int) ((q.2 : Nat) : Int)) := by
  rw [HandleRightClick_eq]
  split
  · exact Spends_refl g
  · simp [Spends, boomLeft, overLeft, winLeft]

theorem CheckWinCondition_spends (g : Game) : Spends g (CheckWinCondition g) := by
  unfold CheckWinCondition
  split
  · cases hw : g.playedWinSound <;> simp [Spends, boomLeft, overLeft, winLeft, hw]
  · exact Spends_refl g

theorem HandleDeferredSounds_spends (g : Game) : Spends g (HandleDeferredSounds g) := by
  unfold HandleDeferredSounds
  cases ho : g.gameOver <;> cases hw : g.win <;> cases hpo : g.playedGameOverSound <;>
    cases hpw : g.playedWinSound <;>
    simp [Spends, boomLeft, overLeft, winLeft, ho, hw, hpo, hpw]

theorem Game_Update_spends (g : Game) (inp : FrameInput) : Spends g (Game_Update g inp) := by
  by_cases ht : g.gameOver = true ∨ g.win = true
  · rw [Game_Update_terminal g inp ht]
    exact HandleDeferredSounds_spends g
  · have ho : g.gameOver = false := by simpa using fun hh => ht (Or.inl hh)
    have hw : g.win = false := by simpa using fun hh => ht (Or.inr hh)
    rw [Game_Update_active g inp ho hw]
    have h1 : Spends g (leftPhase g inp) := by
      rcases leftPhase_cases g inp with h | ⟨q, _, _, h⟩
      · rw [h]; exact Spends_refl g
      · rw [h]; exact HandleLeftClick_spends g q
    have h2 : Spends (leftPhase g inp).1 (rightPhase (leftPhase g inp).1 inp) := by
      rcases rightPhase_cases (leftPhase g inp).1 inp with h | ⟨q, _, _, h⟩
      · rw [h]; exact Spends_refl _
      · rw [h]; exact HandleRightClick_spends _ q
    have h3 := CheckWinCondition_spends (rightPhase (leftPhase g inp).1 inp).1
    exact (h1.seq h2).seq h3

theorem runFrames_spends (g : Game) (inputs : List FrameInput) : Spends g (runFrames g inputs) := by
  induction inputs generalizing g with
  | nil => exact Spends_refl g
  | cons inp rest ih =>
    rw [runFrames]
    exact (Game_Update_spends g inp).seq (ih (Game_Update g inp).1)

/-- C7. Over any sequence of frames played from a freshly initialised game, each of
the explosion, game-over and win sounds is played at most once in total. -/
theorem C7_one_shot_sounds (g : Game) (draws : List Nat) (g0 : Game)
    (h : Game_Init g draws = some g0) (inputs : List FrameInput) :
    (runFrames g0 inputs).2.count SoundId.sBoom ≤ 1 ∧
      (runFrames g0 inputs).2.count SoundId.sOver ≤ 1 ∧
      (runFrames g0 inputs).2.count SoundId.sWin ≤ 1 := by
  obtain ⟨h1, h2, h3⟩ := runFrames_spends g0 inputs
  obtain ⟨_, _, hb, ho, hw⟩ := Game_Init_flags g draws g0 h
  unfold boomLeft at h1
  unfold overLeft at h2
  unfold winLeft at h3
  rw [hb] at h1
  rw [ho] at h2
  rw [hw] at h3
  simp only [Bool.false_eq_true, if_false] at h1 h2 h3
  refine ⟨?_, ?_, ?_⟩ <;> omega


/-! ## The claims about the game loop -/

theorem sampleGame_init : Game_Init blankGame sampleDraws = some sampleGame := rfl

/-- C6. In every reachable state `gameOver` and `win` are not both true; and a frame
of a running game whose primary action reveals a mine ends with `gameOver` set and
`win` clear. -/
theorem C6_gameOver_win_exclusive (g : Game) (hg : Reachable g) :
    ¬ (g.gameOver = true ∧ g.win = true) ∧
      ∀ (inp : FrameInput) (q : Pos), g.gameOver = false → g.win = false →
        inp.leftPressed = true →
        GetMouseCell inp.leftX inp.leftY = some (((q.1 : Nat) : Int), ((q.2 : Nat) : Int)) →
        (g.board.cells q.1 q.2).flagged = false → (g.board.cells q.1 q.2).revealed = false →
        (g.board.cells q.1 q.2).hasMine = true →
          (Game_Update g inp).1.gameOver = true ∧ (Game_Update g inp).1.win = false := by
  constructor
  · rintro ⟨ho, hw⟩
    have := (FlagsInv_reachable g hg).1 ho
    rw [hw] at this
    cases this
  · intro inp q ho hw hp hc hf hr hm
    have hover : (Game_Update g inp).1.gameOver = true := by
      rw [Game_Update_active g inp ho hw]
      dsimp only
      have hleft : leftPhase g inp = HandleLeftClick g ((q.1 : Nat) : Int) ((q.2 : Nat) : Int) := by
        unfold leftPhase
        rw [if_pos hp, hc]
      rw [(CheckWinCondition_flags _).2.1, (rightPhase_flags _ inp).2.1, hleft,
        HandleLeftClick_mine g q hf hr hm]
    exact ⟨hover, (FlagsInv_reachable _ (Reachable.frame g inp hg)).1 hover⟩

theorem C6_gameOver_win_exclusive_witness :
    Reachable (Game_Update sampleGame (leftClickOn cornerCell)).1 ∧
      (¬ ((Game_Update sampleGame (leftClickOn cornerCell)).1.gameOver = true ∧
          (Game_Update sampleGame (leftClickOn cornerCell)).1.win = true) ∧
        ∀ (inp : FrameInput) (q : Pos),
          (Game_Update sampleGame (leftClickOn cornerCell)).1.gameOver = false →
          (Game_Update sampleGame (leftClickOn cornerCell)).1.win = false →
          inp.leftPressed = true →
          GetMouseCell inp.leftX inp.leftY = some (((q.1 : Nat) : Int), ((q.2 : Nat) : Int)) →
          ((Game_Update sampleGame (leftClickOn cornerCell)).1.board.cells q.1 q.2).flagged = false →
          ((Game_Update sampleGame (leftClickOn cornerCell)).1.board.cells q.1 q.2).revealed = false →
          ((Game_Update sampleGame (leftClickOn cornerCell)).1.board.cells q.1 q.2).hasMine = true →
            (Game_Update (Game_Update sampleGame (leftClickOn cornerCell)).1 inp).1.gameOver = true ∧
            (Game_Update (Game_Update sampleGame (leftClickOn cornerCell)).1 inp).1.win = false) :=
  ⟨Reachable.frame sampleGame (leftClickOn cornerCell)
      (Reachable.init blankGame sampleDraws sampleGame rfl),
    C6_gameOver_win_exclusive (Game_Update sampleGame (leftClickOn cornerCell)).1
      (Reachable.frame sampleGame (leftClickOn cornerCell)
        (Reachable.init blankGame sampleDraws sampleGame rfl))⟩

theorem C7_one_shot_sounds_witness :
    Game_Init blankGame sampleDraws = some sampleGame ∧
      ((runFrames sampleGame [leftClickOn cornerCell, leftClickOn centreCell]).2.count SoundId.sBoom ≤ 1 ∧
        (runFrames sampleGame [leftClickOn cornerCell, leftClickOn centreCell]).2.count SoundId.sOver ≤ 1 ∧
        (runFrames sampleGame [leftClickOn cornerCell, leftClickOn centreCell]).2.count SoundId.sWin ≤ 1) :=
  ⟨rfl, C7_one_shot_sounds blankGame sampleDraws sampleGame rfl
    [leftClickOn cornerCell, leftClickOn centreCell]⟩

/-- C8. From a state in which `gameOver` or `win` is set, no sequence of frames
changes the board or either of the two flags. -/
theorem C8_terminal_frozen (g : Game) (h : g.gameOver = true ∨ g.win = true)
    (inputs : List FrameInput) :
    (runFrames g inputs).1.board = g.board ∧ (runFrames g inputs).1.gameOver = g.gameOver ∧
      (runFrames g inputs).1.win = g.win := by
  induction inputs generalizing g with
  | nil => exact ⟨rfl, rfl, rfl⟩
  | cons inp rest ih =>
    rw [runFrames]
    dsimp only
    rw [Game_Update_terminal g inp h]
    obtain ⟨hb, ho, hw⟩ := HandleDeferredSounds_flags g
    obtain ⟨ib, io, iw⟩ := ih (HandleDeferredSounds g).1 (by rw [ho, hw]; exact h)
    exact ⟨ib.trans hb, io.trans ho, iw.trans hw⟩

theorem C8_terminal_frozen_witness :
    (lostGame.gameOver = true ∨ lostGame.win = true) ∧
      ((runFrames lostGame [leftClickOn centreCell, leftClickOn cornerCell]).1.board = lostGame.board ∧
        (runFrames lostGame [leftClickOn centreCell, leftClickOn cornerCell]).1.gameOver
          = lostGame.gameOver ∧
        (runFrames lostGame [leftClickOn centreCell, leftClickOn cornerCell]).1.win = lostGame.win) :=
  ⟨Or.inl rfl, C8_terminal_frozen lostGame (Or.inl rfl) [leftClickOn centreCell, leftClickOn cornerCell]⟩

/-- C9. The primary action on an in-bounds cell that is flagged or already revealed
changes nothing in the game state and plays no sound. -/
theorem C9_HandleLeftClick_noop (g : Game) (q : Pos)
    (h : (g.board.cells q.1 q.2).flagged = true ∨ (g.board.cells q.1 q.2).revealed = true) :
    HandleLeftClick g ((q.1 : Nat) : Int) ((q.2 : Nat) : Int) = (g, []) :=
  HandleLeftClick_blocked g q h

theorem C9_HandleLeftClick_noop_witness :
    ((flaggedGame.board.cells centreCell.1 centreCell.2).flagged = true ∨
        (flaggedGame.board.cells centreCell.1 centreCell.2).revealed = true) ∧
      HandleLeftClick flaggedGame ((centreCell.1 : Nat) : Int) ((centreCell.2 : Nat) : Int)
        = (flaggedGame, []) :=
  ⟨Or.inl rfl, C9_HandleLeftClick_noop flaggedGame centreCell (Or.inl rfl)⟩

theorem C5_CheckWinCondition_iff_witness :
    ((mineSet tenMineGame.board).card = MINES ∧ tenMineGame.win = false) ∧
      (((CheckWinCondition tenMineGame).1.win = true ↔
          ∀ (i : Fin ROWS) (j : Fin COLS),
            (tenMineGame.board.cells i j).hasMine = false →
              (tenMineGame.board.cells i j).revealed = true) ∧
        ((CheckWinCondition tenMineGame).1.win = true ↔
          Board_CountRevealedSafe tenMineGame.board = 71) ∧
        (CheckWinCondition tenMineGame).1.board = tenMineGame.board) :=
  ⟨⟨rfl, rfl⟩, C5_CheckWinCondition_iff tenMineGame rfl rfl⟩


theorem revealAt_grows (b : Board) (q : Pos) (hm : (b.cells q.1 q.2).hasMine = false) :
    Grows b (revealAt b q) :=
  reveal_grows b q hm

/-- C10 (amended). In a freshly initialised game nothing is revealed, and the primary
action on an in-bounds cell that holds no mine and has `nearbyMines == 0` raises
`Board_CountRevealedSafe` by at least one and leaves every mine cell unrevealed. -/
theorem C10_zero_click_reveals (g : Game) (draws : List Nat) (g0 : Game)
    (h : Game_Init g draws = some g0) (q : Pos)
    (hm : (g0.board.cells q.1 q.2).hasMine = false)
    (hz : (g0.board.cells q.1 q.2).nearbyMines = 0) :
    Board_CountRevealedSafe g0.board = 0 ∧
      Board_CountRevealedSafe g0.board + 1 ≤
        Board_CountRevealedSafe
          (HandleLeftClick g0 ((q.1 : Nat) : Int) ((q.2 : Nat) : Int)).1.board ∧
      ∀ (i : Fin ROWS) (j : Fin COLS),
        ((HandleLeftClick g0 ((q.1 : Nat) : Int) ((q.2 : Nat) : Int)).1.board.cells i j).hasMine
            = true →
          ((HandleLeftClick g0 ((q.1 : Nat) : Int) ((q.2 : Nat) : Int)).1.board.cells i j).revealed
            = false := by
  have hhid := Game_Init_hidden g draws g0 h
  have hc0 := count_zero_of_hidden g0.board (fun i j => (hhid i j).1)
  rw [HandleLeftClick_zero g0 q (hhid q.1 q.2).2 (hhid q.1 q.2).1 hm hz]
  dsimp only
  have hg1 := revealAt_grows g0.board q hm
  have hg2 := (Board_RevealEmpty_post (revealAt g0.board q) ((q.1 : Nat) : Int)
    ((q.2 : Nat) : Int) SoundId.sNumber).1.grows
  dsimp only at hg2
  have hg := Grows_trans hg1 hg2
  generalize (Board_RevealEmpty (revealAt g0.board q) ((q.1 : Nat) : Int) ((q.2 : Nat) : Int)
    SoundId.sNumber).1 = b2 at hg hg2 ⊢
  refine ⟨hc0, ?_, ?_⟩
  · rw [hc0, Board_CountRevealedSafe_eq]
    apply Finset.card_pos.2
    refine ⟨q, ?_⟩
    simp only [revealedSafeSet, Finset.mem_filter, Finset.mem_univ, true_and]
    refine ⟨hg2.mono _ _ ?_, by rw [hg.hasMine]; exact hm⟩
    rw [revealAt_cells, if_pos rfl]
  · intro i j hmine
    rw [hg.hasMine] at hmine
    rw [hg.mine i j hmine]
    exact (hhid i j).1

set_option maxRecDepth 100000 in
theorem C10_zero_click_reveals_witness :
    (Game_Init blankGame sampleDraws = some sampleGame ∧
      (sampleGame.board.cells centreCell.1 centreCell.2).hasMine = false ∧
      (sampleGame.board.cells centreCell.1 centreCell.2).nearbyMines = 0) ∧
    (Board_CountRevealedSafe sampleGame.board = 0 ∧
      Board_CountRevealedSafe sampleGame.board + 1 ≤
        Board_CountRevealedSafe
          (HandleLeftClick sampleGame ((centreCell.1 : Nat) : Int)
            ((centreCell.2 : Nat) : Int)).1.board ∧
      ∀ (i : Fin ROWS) (j : Fin COLS),
        ((HandleLeftClick sampleGame ((centreCell.1 : Nat) : Int)
            ((centreCell.2 : Nat) : Int)).1.board.cells i j).hasMine = true →
          ((HandleLeftClick sampleGame ((centreCell.1 : Nat) : Int)
            ((centreCell.2 : Nat) : Int)).1.board.cells i j).revealed = false) :=
  ⟨⟨rfl, by decide, by decide⟩,
    C10_zero_click_reveals blankGame sampleDraws sampleGame rfl centreCell (by decide) (by decide)⟩

set_option maxRecDepth 100000 in
/-- C10 as stated fails on a mine cell: `Board_CountNearbyMines` skips mine cells, so
after `Game_Init` the mine at (0,0) still has `nearbyMines == 0`; the primary action on
it leaves `Board_CountRevealedSafe` at 0 and reveals a mine. -/
theorem C10_counterexample :
    (Game_Init blankGame sampleDraws = some sampleGame ∧
      (sampleGame.board.cells cornerCell.1 cornerCell.2).nearbyMines = 0) ∧
    ¬ (Board_CountRevealedSafe sampleGame.board + 1 ≤
        Board_CountRevealedSafe
          (HandleLeftClick sampleGame ((cornerCell.1 : Nat) : Int)
            ((cornerCell.2 : Nat) : Int)).1.board ∧
      ∀ (i : Fin ROWS) (j : Fin COLS),
        ((HandleLeftClick sampleGame ((cornerCell.1 : Nat) : Int)
            ((cornerCell.2 : Nat) : Int)).1.board.cells i j).hasMine = true →
          ((HandleLeftClick sampleGame ((cornerCell.1 : Nat) : Int)
            ((cornerCell.2 : Nat) : Int)).1.board.cells i j).revealed = false) := by
  have hmine : (sampleGame.board.cells cornerCell.1 cornerCell.2).hasMine = true := by decide
  have hhid := Game_Init_hidden blankGame sampleDraws sampleGame rfl cornerCell.1 cornerCell.2
  refine ⟨⟨rfl, by decide⟩, ?_⟩
  rintro ⟨hcount, _⟩
  rcases (HandleLeftClick_flags sampleGame cornerCell).2 with hover | ⟨_, hsame⟩
  · rw [HandleLeftClick_mine sampleGame cornerCell hhid.2 hhid.1 hmine] at hover
    have hfalse : sampleGame.gameOver = false :=
      (Game_Init_flags blankGame sampleDraws sampleGame rfl).1
    rw [hfalse] at hover
    cases hover
  · rw [hsame] at hcount
    omega


/-! ## Frame properties of the board operations -/

/-- C13. After `Board_RevealAllMines` every mine-bearing cell is revealed, the
`revealed` flag of every cell without a mine is unchanged, and `flagged`, `hasMine`
and `nearbyMines` of every cell are unchanged. -/
theorem C13_RevealAllMines_frame (b : Board) (i : Fin ROWS) (j : Fin COLS) :
    ((b.cells i j).hasMine = true → ((Board_RevealAllMines b).cells i j).revealed = true) ∧
      ((b.cells i j).hasMine = false →
        ((Board_RevealAllMines b).cells i j).revealed = (b.cells i j).revealed) ∧
      ((Board_RevealAllMines b).cells i j).flagged = (b.cells i j).flagged ∧
      ((Board_RevealAllMines b).cells i j).hasMine = (b.cells i j).hasMine ∧
      ((Board_RevealAllMines b).cells i j).nearbyMines = (b.cells i j).nearbyMines := by
  rw [Board_RevealAllMines_cells]
  by_cases hm : (b.cells i j).hasMine = true
  · rw [if_pos hm]
    refine ⟨fun _ => rfl, ?_, rfl, rfl, rfl⟩
    intro h
    rw [hm] at h
    cases h
  · rw [if_neg hm]
    exact ⟨fun h => absurd h hm, fun _ => rfl, rfl, rfl, rfl⟩

theorem Board_CountNearbyMines_hasMine (b : Board) (i : Fin ROWS) (j : Fin COLS) :
    ((Board_CountNearbyMines b).cells i j).hasMine = (b.cells i j).hasMine := by
  rw [Board_CountNearbyMines_cells]
  split <;> rfl

/-- C15. `Board_CountNearbyMines` is idempotent: a second run leaves the board of the
first run as it is. -/
theorem C15_CountNearbyMines_idempotent (b : Board) :
    Board_CountNearbyMines (Board_CountNearbyMines b) = Board_CountNearbyMines b := by
  apply Board.ext
  funext i j
  rw [Board_CountNearbyMines_cells (Board_CountNearbyMines b),
    countAround_congr b (Board_CountNearbyMines b) (Board_CountNearbyMines_hasMine b)]
  by_cases hm : ((Board_CountNearbyMines b).cells i j).hasMine = false
  · rw [if_pos hm]
    rw [Board_CountNearbyMines_hasMine] at hm
    rw [Board_CountNearbyMines_cells, if_pos hm]
  · rw [if_neg hm]

theorem Board.set_set_self (b : Board) (q : Pos) (v : Cell) (h : v = b.cells q.1 q.2) :
    b.set ((q.1 : Nat) : Int) ((q.2 : Nat) : Int) v = b := by
  apply Board.ext
  funext i j
  rw [Board.set_cells_pos]
  by_cases hq : (i, j) = q
  · subst hq
    rw [if_pos rfl, h]
  · rw [if_neg hq]

theorem Board.set_twice (b : Board) (q : Pos) (v w : Cell) :
    (b.set ((q.1 : Nat) : Int) ((q.2 : Nat) : Int) v).set ((q.1 : Nat) : Int) ((q.2 : Nat) : Int) w
      = b.set ((q.1 : Nat) : Int) ((q.2 : Nat) : Int) w := by
  apply Board.ext
  funext i j
  rw [Board.set_cells_pos, Board.set_cells_pos, Board.set_cells_pos]
  by_cases hq : (i, j) = q
  · rw [if_pos hq, if_pos hq]
  · rw [if_neg hq, if_neg hq, if_neg hq]

/-- C12. On an in-bounds unrevealed cell, one secondary action plays the flag sound
and changes nothing but that cell's `flagged` field (which it negates), and a second
one on the same cell restores the whole game state. -/
theorem C12_double_toggle (g : Game) (q : Pos) (hr : (g.board.cells q.1 q.2).revealed = false) :
    (HandleRightClick (HandleRightClick g ((q.1 : Nat) : Int) ((q.2 : Nat) : Int)).1
        ((q.1 : Nat) : Int) ((q.2 : Nat) : Int)).1 = g ∧
      HandleRightClick g ((q.1 : Nat) : Int) ((q.2 : Nat) : Int) =
        ({ g with board := (g.board.set ((q.1 : Nat) : Int) ((q.2 : Nat) : Int)
              { g.board.cells q.1 q.2 with flagged := !(g.board.cells q.1 q.2).flagged }) },
          [SoundId.sFlag]) ∧
      ∀ (i : Fin ROWS) (j : Fin COLS),
        ((HandleRightClick g ((q.1 : Nat) : Int) ((q.2 : Nat) : Int)).1.board.cells i j)
          = if (i, j) = q then
              { g.board.cells i j with flagged := !(g.board.cells i j).flagged }
            else g.board.cells i j := by
  have hne : ¬ (g.board.cells q.1 q.2).revealed = true := by rw [hr]; simp
  have h1 : HandleRightClick g ((q.1 : Nat) : Int) ((q.2 : Nat) : Int) =
      ({ g with board := (g.board.set ((q.1 : Nat) : Int) ((q.2 : Nat) : Int)
            { g.board.cells q.1 q.2 with flagged := !(g.board.cells q.1 q.2).flagged }) },
        [SoundId.sFlag]) := by
    rw [HandleRightClick_eq, if_neg hne]
  refine ⟨?_, h1, ?_⟩
  · rw [h1]
    dsimp only
    rw [HandleRightClick_eq]
    dsimp only
    rw [Board.set_cells_pos, if_pos rfl]
    dsimp only
    rw [if_neg hne]
    dsimp only
    rw [Board.set_twice, Board.set_set_self g.board q _ (by
      cases hc : g.board.cells q.1 q.2
      simp)]
  · intro i j
    rw [h1]
    dsimp only
    rw [Board.set_cells_pos]
    by_cases hq : (i, j) = q
    · rw [if_pos hq, if_pos hq]
      subst hq
      rfl
    · rw [if_neg hq, if_neg hq]


theorem Keeps_refl (b : Board) : Keeps b b :=
  ⟨fun _ _ => rfl, fun _ _ => rfl, fun _ _ h => h⟩

theorem Keeps_trans {b1 b2 b3 : Board} (h12 : Keeps b1 b2) (h23 : Keeps b2 b3) : Keeps b1 b3 where
  hasMine i j := (h23.hasMine i j).trans (h12.hasMine i j)
  nearby i j := (h23.nearby i j).trans (h12.nearby i j)
  mono i j h := h23.mono i j (h12.mono i j h)

theorem Keeps_of_Grows {b1 b2 : Board} (h : Grows b1 b2) : Keeps b1 b2 :=
  ⟨h.hasMine, h.nearby, h.mono⟩

theorem Keeps_revealAt (b : Board) (q : Pos) : Keeps b (revealAt b q) := by
  constructor <;> intro i j <;> rw [revealAt_cells] <;> split
  · rfl
  · rfl
  · rfl
  · rfl
  · exact fun _ => rfl
  · exact fun h => h

theorem Keeps_RevealAllMines (b : Board) : Keeps b (Board_RevealAllMines b) := by
  constructor <;> intro i j <;> rw [Board_RevealAllMines_cells] <;> split
  · rfl
  · rfl
  · rfl
  · rfl
  · exact fun _ => rfl
  · exact fun h => h

theorem Keeps_flag (b : Board) (q : Pos) (v : Bool) :
    Keeps b (b.set ((q.1 : Nat) : Int) ((q.2 : Nat) : Int) { b.cells q.1 q.2 with flagged := v }) := by
  constructor <;> intro i j <;> rw [Board.set_cells_pos] <;> by_cases hq : (i, j) = q
  · rw [if_pos hq]; subst hq; rfl
  · rw [if_neg hq]
  · rw [if_pos hq]; subst hq; rfl
  · rw [if_neg hq]
  · rw [if_pos hq]; subst hq; exact fun h => h
  · rw [if_neg hq]; exact fun h => h

theorem HandleLeftClick_keeps (g : Game) (q : Pos) :
    Keeps g.board (HandleLeftClick g ((q.1 : Nat) : Int) ((q.2 : Nat) : Int)).1.board := by
  by_cases hblk : (g.board.cells q.1 q.2).flagged = true ∨ (g.board.cells q.1 q.2).revealed = true
  · rw [HandleLeftClick_blocked g q hblk]
    exact Keeps_refl _
  · have hf : (g.board.cells q.1 q.2).flagged = false := by
      simpa using fun h => hblk (Or.inl h)
    have hr : (g.board.cells q.1 q.2).revealed = false := by
      simpa using fun h => hblk (Or.inr h)
    by_cases hm : (g.board.cells q.1 q.2).hasMine = true
    · rw [HandleLeftClick_mine g q hf hr hm]
      dsimp only
      exact Keeps_trans (Keeps_revealAt g.board q) (Keeps_RevealAllMines (revealAt g.board q))
    · have hm' : (g.board.cells q.1 q.2).hasMine = false := by simpa using hm
      by_cases hz : (g.board.cells q.1 q.2).nearbyMines = 0
      · rw [HandleLeftClick_zero g q hf hr hm' hz]
        dsimp only
        exact Keeps_trans (Keeps_revealAt g.board q)
          (Keeps_of_Grows (Board_RevealEmpty_post (revealAt g.board q) ((q.1 : Nat) : Int)
            ((q.2 : Nat) : Int) SoundId.sNumber).1.grows)
      · rw [HandleLeftClick_number g q hf hr hm' hz]
        dsimp only
        exact Keeps_revealAt g.board q

theorem HandleLeftClick_reveals (g : Game) (q : Pos)
    (hf : (g.board.cells q.1 q.2).flagged = false) (hr : (g.board.cells q.1 q.2).revealed = false) :
    ((HandleLeftClick g ((q.1 : Nat) : Int) ((q.2 : Nat) : Int)).1.board.cells q.1 q.2).revealed
      = true := by
  have hq : ((revealAt g.board q).cells q.1 q.2).revealed = true := by
    rw [revealAt_cells, if_pos rfl]
  by_cases hm : (g.board.cells q.1 q.2).hasMine = true
  · rw [HandleLeftClick_mine g q hf hr hm]
    dsimp only
    exact (Keeps_RevealAllMines (revealAt g.board q)).mono _ _ hq
  · have hm' : (g.board.cells q.1 q.2).hasMine = false := by simpa using hm
    by_cases hz : (g.board.cells q.1 q.2).nearbyMines = 0
    · rw [HandleLeftClick_zero g q hf hr hm' hz]
      dsimp only
      exact (Board_RevealEmpty_post (revealAt g.board q) ((q.1 : Nat) : Int)
        ((q.2 : Nat) : Int) SoundId.sNumber).1.grows.mono _ _ hq
    · rw [HandleLeftClick_number g q hf hr hm' hz]
      dsimp only
      exact hq

theorem HandleRightClick_keeps (g : Game) (q : Pos) :
    Keeps g.board (HandleRightClick g ((q.1 : Nat) : Int) ((q.2 : Nat) : Int)).1.board := by
  rw [HandleRightClick_eq]
  split
  · exact Keeps_refl _
  · exact Keeps_flag g.board q _

theorem Game_Update_keeps (g : Game) (inp : FrameInput) :
    Keeps g.board (Game_Update g inp).1.board := by
  by_cases ht : g.gameOver = true ∨ g.win = true
  · rw [Game_Update_terminal g inp ht, (HandleDeferredSounds_flags g).1]
    exact Keeps_refl _
  · have ho : g.gameOver = false := by simpa using fun hh => ht (Or.inl hh)
    have hw : g.win = false := by simpa using fun hh => ht (Or.inr hh)
    rw [Game_Update_active g inp ho hw]
    dsimp only
    rw [(CheckWinCondition_flags _).1]
    have h1 : Keeps g.board (leftPhase g inp).1.board := by
      rcases leftPhase_cases g inp with h | ⟨q, _, _, h⟩
      · rw [h]; exact Keeps_refl _
      · rw [h]; exact HandleLeftClick_keeps g q
    have h2 : Keeps (leftPhase g inp).1.board (rightPhase (leftPhase g inp).1 inp).1.board := by
      rcases rightPhase_cases (leftPhase g inp).1 inp with h | ⟨q, _, _, h⟩
      · rw [h]; exact Keeps_refl _
      · rw [h]; exact HandleRightClick_keeps _ q
    exact Keeps_trans h1 h2

/-- C16. A cell that is revealed before a `Game_Update` frame is revealed after it,
whatever the state and the input. -/
theorem C16_revealed_terminal (g : Game) (inp : FrameInput) (i : Fin ROWS) (j : Fin COLS)
    (h : (g.board.cells i j).revealed = true) :
    ((Game_Update g inp).1.board.cells i j).revealed = true :=
  (Game_Update_keeps g inp).mono i j h


theorem mineSet_congr (b1 b2 : Board)
    (h : ∀ (i : Fin ROWS) (j : Fin COLS), (b2.cells i j).hasMine = (b1.cells i j).hasMine) :
    mineSet b2 = mineSet b1 := by
  unfold mineSet
  simp only [h]

theorem mineNeighbours_congr (b1 b2 : Board)
    (h : ∀ (i : Fin ROWS) (j : Fin COLS), (b2.cells i j).hasMine = (b1.cells i j).hasMine)
    (p : Pos) : mineNeighbours b2 p = mineNeighbours b1 p := by
  unfold mineNeighbours
  simp only [h]

theorem LayoutOK_of_Keeps {b1 b2 : Board} (h : Keeps b1 b2) (h1 : LayoutOK b1) : LayoutOK b2 := by
  refine ⟨by rw [mineSet_congr b1 b2 h.hasMine]; exact h1.1, ?_⟩
  intro i j hm
  rw [h.nearby, mineNeighbours_congr b1 b2 h.hasMine]
  exact h1.2 i j (by rw [← h.hasMine]; exact hm)

theorem LayoutOK_CountNearbyMines (b : Board) (hb : (mineSet b).card = MINES) :
    LayoutOK (Board_CountNearbyMines b) := by
  refine ⟨by rw [mineSet_congr b _ (Board_CountNearbyMines_hasMine b)]; exact hb, ?_⟩
  intro i j hm
  rw [Board_CountNearbyMines_hasMine] at hm
  rw [mineNeighbours_congr b _ (Board_CountNearbyMines_hasMine b),
    ← countAround_eq_mineNeighbours b (i, j) hm, Board_CountNearbyMines_cells, if_pos hm]

theorem LayoutOK_init (g : Game) (draws : List Nat) (g0 : Game) (h : Game_Init g draws = some g0) :
    LayoutOK g0.board := by
  obtain ⟨placed, hp, rfl⟩ := Game_Init_eq g draws g0 h
  obtain ⟨hcard, _⟩ := placeMinesLoop_spec draws 0 (Board_Init g.board) placed hp (Nat.zero_le _)
  rw [mineSet_Board_Init, Finset.card_empty, Nat.add_zero, Nat.zero_add] at hcard
  dsimp only
  exact LayoutOK_CountNearbyMines placed hcard

theorem LayoutOK_reachable (g : Game) (hg : Reachable g) : LayoutOK g.board := by
  induction hg with
  | init g draws g0 h => exact LayoutOK_init g draws g0 h
  | frame g inp _ ih => exact LayoutOK_of_Keeps (Game_Update_keeps g inp) ih

/-- C17. `Game_Update` never changes `hasMine` or `nearbyMines` of any cell; hence in
every reachable state the board holds exactly `MINES` mines and every cell without a
mine carries the number of its mine-bearing Moore neighbours. -/
theorem C17_layout_immutable (g : Game) :
    (∀ (inp : FrameInput) (i : Fin ROWS) (j : Fin COLS),
        ((Game_Update g inp).1.board.cells i j).hasMine = (g.board.cells i j).hasMine ∧
        ((Game_Update g inp).1.board.cells i j).nearbyMines = (g.board.cells i j).nearbyMines) ∧
      (Reachable g →
        (mineSet g.board).card = MINES ∧
        ∀ (i : Fin ROWS) (j : Fin COLS), (g.board.cells i j).hasMine = false →
          (g.board.cells i j).nearbyMines = (mineNeighbours g.board (i, j) : Int)) :=
  ⟨fun inp i j => ⟨(Game_Update_keeps g inp).hasMine i j, (Game_Update_keeps g inp).nearby i j⟩,
    fun hg => LayoutOK_reachable g hg⟩

theorem Closed_of_Keeps {b1 b2 : Board} (h : Keeps b1 b2) {p : Pos} (hc : Closed b1 p) :
    Closed b2 p := by
  intro q hq hm
  exact h.mono _ _ (hc q hq (by rw [← h.hasMine]; exact hm))

theorem ZeroSafe_of_Keeps {b1 b2 : Board} (h : Keeps b1 b2) (p : Pos) :
    ZeroSafe b2 p ↔ ZeroSafe b1 p := by
  unfold ZeroSafe
  rw [h.hasMine, h.nearby]

/-- The closure invariant passes to a board that keeps the layout, as long as every
zero-count cell that is newly revealed there is closed. -/
theorem ClosedInv_step {b1 b2 : Board} (h : Keeps b1 b2) (h1 : ClosedInv b1)
    (hnew : ∀ p : Pos, (b1.cells p.1 p.2).revealed = false → (b2.cells p.1 p.2).revealed = true →
      ZeroSafe b1 p → Closed b2 p) : ClosedInv b2 := by
  intro p hr hz
  have hz1 := (ZeroSafe_of_Keeps h p).1 hz
  by_cases hold : (b1.cells p.1 p.2).revealed = true
  · exact Closed_of_Keeps h (h1 p hold hz1)
  · exact hnew p (by simpa using hold) hr hz1

theorem HandleLeftClick_closed (g : Game) (q : Pos) (h : ClosedInv g.board) :
    ClosedInv (HandleLeftClick g ((q.1 : Nat) : Int) ((q.2 : Nat) : Int)).1.board := by
  refine ClosedInv_step (HandleLeftClick_keeps g q) h ?_
  by_cases hblk : (g.board.cells q.1 q.2).flagged = true ∨ (g.board.cells q.1 q.2).revealed = true
  · rw [HandleLeftClick_blocked g q hblk]
    intro p h1 h2
    rw [h1] at h2
    cases h2
  · have hf : (g.board.cells q.1 q.2).flagged = false := by
      simpa using fun h => hblk (Or.inl h)
    have hr : (g.board.cells q.1 q.2).revealed = false := by
      simpa using fun h => hblk (Or.inr h)
    by_cases hm : (g.board.cells q.1 q.2).hasMine = true
    · rw [HandleLeftClick_mine g q hf hr hm]
      dsimp only
      intro p h1 h2 hz
      exfalso
      rw [Board_RevealAllMines_cells, revealAt_cells] at h2
      by_cases hpq : (p.1, p.2) = q
      · have : p = q := hpq
        subst this
        rw [hz.1] at hm
        cases hm
      · rw [if_neg hpq, if_neg (by rw [hz.1]; simp), h1] at h2
        cases h2
    · have hm' : (g.board.cells q.1 q.2).hasMine = false := by simpa using hm
      by_cases hz : (g.board.cells q.1 q.2).nearbyMines = 0
      · rw [HandleLeftClick_zero g q hf hr hm' hz]
        dsimp only
        obtain ⟨hrel, hN⟩ := Board_RevealEmpty_post (revealAt g.board q) ((q.1 : Nat) : Int)
          ((q.2 : Nat) : Int) SoundId.sNumber
        intro p h1 h2 hzp
        by_cases hpq : (p.1, p.2) = q
        · have : p = q := hpq
          subst this
          exact fun r hr hrm => hN r hr hrm
        · refine hrel.closes p ?_ h2 ?_
          · dsimp only
            rw [revealAt_cells, if_neg hpq]
            exact h1
          · dsimp only
            rw [revealAt_cells, if_neg hpq]
            exact hzp.2
      · rw [HandleLeftClick_number g q hf hr hm' hz]
        dsimp only
        intro p h1 h2 hzp
        exfalso
        rw [revealAt_cells] at h2
        by_cases hpq : (p.1, p.2) = q
        · have : p = q := hpq
          subst this
          exact hz hzp.2
        · rw [if_neg hpq, h1] at h2
          cases h2

theorem HandleRightClick_closed (g : Game) (q : Pos) (h : ClosedInv g.board) :
    ClosedInv (HandleRightClick g ((q.1 : Nat) : Int) ((q.2 : Nat) : Int)).1.board := by
  refine ClosedInv_step (HandleRightClick_keeps g q) h ?_
  rw [HandleRightClick_eq]
  intro p h1 h2
  exfalso
  split at h2
  · rw [h1] at h2
    cases h2
  · dsimp only at h2
    rw [Board.set_cells_pos] at h2
    by_cases hpq : (p.1, p.2) = q
    · have : p = q := hpq
      subst this
      rw [if_pos rfl] at h2
      dsimp only at h2
      rw [h1] at h2
      cases h2
    · rw [if_neg hpq, h1] at h2
      cases h2

theorem Game_Update_closed (g : Game) (inp : FrameInput) (h : ClosedInv g.board) :
    ClosedInv (Game_Update g inp).1.board := by
  by_cases ht : g.gameOver = true ∨ g.win = true
  · rw [Game_Update_terminal g inp ht, (HandleDeferredSounds_flags g).1]
    exact h
  · have ho : g.gameOver = false := by simpa using fun hh => ht (Or.inl hh)
    have hw : g.win = false := by simpa using fun hh => ht (Or.inr hh)
    rw [Game_Update_active g inp ho hw]
    dsimp only
    rw [(CheckWinCondition_flags _).1]
    have h1 : ClosedInv (leftPhase g inp).1.board := by
      rcases leftPhase_cases g inp with e | ⟨q, _, _, e⟩
      · rw [e]; exact h
      · rw [e]; exact HandleLeftClick_closed g q h
    rcases rightPhase_cases (leftPhase g inp).1 inp with e | ⟨q, _, _, e⟩
    · rw [e]; exact h1
    · rw [e]; exact HandleRightClick_closed _ q h1

theorem ClosedInv_reachable (g : Game) (hg : Reachable g) : ClosedInv g.board := by
  induction hg with
  | init g draws g0 h =>
    intro p hr
    rw [(Game_Init_hidden g draws g0 h p.1 p.2).1] at hr
    cases hr
  | frame g inp _ ih => exact Game_Update_closed g inp ih

/-- C18. In every reachable state, every Moore neighbour of a revealed cell that holds
no mine and has `nearbyMines == 0` is revealed. -/
theorem C18_closure_invariant (g : Game) (hg : Reachable g) (p q : Pos)
    (hr : (g.board.cells p.1 p.2).revealed = true) (hm : (g.board.cells p.1 p.2).hasMine = false)
    (hz : (g.board.cells p.1 p.2).nearbyMines = 0) (hadj : MooreAdj p q) :
    (g.board.cells q.1 q.2).revealed = true := by
  have hlay := (LayoutOK_reachable g hg).2 p.1 p.2 hm
  rw [hz] at hlay
  have hcard : mineNeighbours g.board p = 0 := by
    have : ((mineNeighbours g.board (p.1, p.2) : Nat) : Int) = 0 := hlay.symm
    exact_mod_cast this
  have hqm : (g.board.cells q.1 q.2).hasMine = false := by
    by_contra hcon
    have hmem : q ∈ Finset.univ.filter fun r : Pos =>
        MooreAdj p r ∧ (g.board.cells r.1 r.2).hasMine = true := by
      simp only [Finset.mem_filter, Finset.mem_univ, true_and]
      exact ⟨hadj, by simpa using hcon⟩
    unfold mineNeighbours at hcard
    rw [Finset.card_eq_zero] at hcard
    rw [hcard] at hmem
    exact absurd hmem (Finset.not_mem_empty q)
  exact ClosedInv_reachable g hg p hr ⟨hm, hz⟩ q hadj.2 hqm


theorem GetMouseCell_pos (q : Pos) :
    GetMouseCell ((q.2 : Nat) : Int) ((q.1 : Nat) : Int)
      = some (((q.1 : Nat) : Int), ((q.2 : Nat) : Int)) := by
  have h1 := q.1.isLt
  have h2 := q.2.isLt
  unfold GetMouseCell
  rw [if_neg]
  simp only [Bool.or_eq_true, decide_eq_true_eq, not_or, not_lt, not_le]
  omega

theorem Game_Update_leftClickOn (g : Game) (q : Pos) (ho : g.gameOver = false)
    (hw : g.win = false) :
    Game_Update g (leftClickOn q) =
      ((CheckWinCondition (HandleLeftClick g ((q.1 : Nat) : Int) ((q.2 : Nat) : Int)).1).1,
        (HandleLeftClick g ((q.1 : Nat) : Int) ((q.2 : Nat) : Int)).2 ++ [] ++
          (CheckWinCondition (HandleLeftClick g ((q.1 : Nat) : Int) ((q.2 : Nat) : Int)).1).2) := by
  have hl : leftPhase g (leftClickOn q)
      = HandleLeftClick g ((q.1 : Nat) : Int) ((q.2 : Nat) : Int) := by
    unfold leftPhase leftClickOn
    dsimp only
    rw [if_pos rfl, GetMouseCell_pos]
  have hr : ∀ g1 : Game, rightPhase g1 (leftClickOn q) = (g1, []) := by
    intro g1
    unfold rightPhase leftClickOn
    dsimp only
    rw [if_neg (by simp)]
  rw [Game_Update_active g _ ho hw, hl, hr]

theorem Game_Update_rightClickOn (g : Game) (q : Pos) (ho : g.gameOver = false)
    (hw : g.win = false) :
    Game_Update g (rightClickOn q) =
      ((CheckWinCondition (HandleRightClick g ((q.1 : Nat) : Int) ((q.2 : Nat) : Int)).1).1,
        [] ++ (HandleRightClick g ((q.1 : Nat) : Int) ((q.2 : Nat) : Int)).2 ++
          (CheckWinCondition (HandleRightClick g ((q.1 : Nat) : Int) ((q.2 : Nat) : Int)).1).2) := by
  have hl : leftPhase g (rightClickOn q) = (g, []) := by
    unfold leftPhase rightClickOn
    dsimp only
    rw [if_neg (by simp)]
  have hr : ∀ g1 : Game, rightPhase g1 (rightClickOn q)
      = HandleRightClick g1 ((q.1 : Nat) : Int) ((q.2 : Nat) : Int) := by
    intro g1
    unfold rightPhase rightClickOn
    dsimp only
    rw [if_pos rfl, GetMouseCell_pos]
  rw [Game_Update_active g _ ho hw, hl, hr]

/-- `Board_RevealEmpty` reveals every cell of the 3x3 block around its start that holds
no mine, flagged or not, and leaves every flag as it is. -/
theorem Board_RevealEmpty_flagged (b : Board) (row col : Int) (snd : SoundId) (q : Pos)
    (hn : NearAt row col q) (hm : (b.cells q.1 q.2).hasMine = false) :
    ((Board_RevealEmpty b row col snd).1.cells q.1 q.2).revealed = true ∧
      ((Board_RevealEmpty b row col snd).1.cells q.1 q.2).flagged = (b.cells q.1 q.2).flagged := by
  obtain ⟨hrel, hN⟩ := Board_RevealEmpty_post b row col snd
  exact ⟨hN q hn (by rw [hrel.grows.hasMine]; exact hm), hrel.grows.flagged _ _⟩

/-- In a running game, a right click on a hidden, unflagged cell `q` without a mine,
followed by a left click on a hidden, unflagged neighbour `p` without a mine and with
`nearbyMines == 0`, leaves `q` flagged and revealed. -/
theorem flag_then_fill (g : Game) (p q : Pos) (ho : g.gameOver = false) (hw : g.win = false)
    (hcount : Board_CountRevealedSafe g.board ≠ ROWS * COLS - MINES)
    (hadj : MooreAdj p q)
    (hqr : (g.board.cells q.1 q.2).revealed = false)
    (hqf : (g.board.cells q.1 q.2).flagged = false)
    (hqm : (g.board.cells q.1 q.2).hasMine = false)
    (hpr : (g.board.cells p.1 p.2).revealed = false)
    (hpf : (g.board.cells p.1 p.2).flagged = false)
    (hpm : (g.board.cells p.1 p.2).hasMine = false)
    (hpz : (g.board.cells p.1 p.2).nearbyMines = 0) :
    (((Game_Update g (rightClickOn q)).1.board.cells q.1 q.2).flagged = true ∧
      ((Game_Update g (rightClickOn q)).1.board.cells q.1 q.2).revealed = false) ∧
    (((Game_Update (Game_Update g (rightClickOn q)).1 (leftClickOn p)).1.board.cells
        q.1 q.2).flagged = true ∧
      ((Game_Update (Game_Update g (rightClickOn q)).1 (leftClickOn p)).1.board.cells
        q.1 q.2).revealed = true) ∧
    ((Game_Update (Game_Update g (rightClickOn q)).1 (leftClickOn p)).1.board.cells
        p.1 p.2).revealed = true := by
  have hne : ¬ (g.board.cells q.1 q.2).revealed = true := by rw [hqr]; simp
  have hpq : ¬ (p.1, p.2) = q := fun h => hadj.1 h
  -- the first frame
  have hR : HandleRightClick g ((q.1 : Nat) : Int) ((q.2 : Nat) : Int) =
      ({ g with board := (g.board.set ((q.1 : Nat) : Int) ((q.2 : Nat) : Int)
            { g.board.cells q.1 q.2 with flagged := !(g.board.cells q.1 q.2).flagged }) },
        [SoundId.sFlag]) := by
    rw [HandleRightClick_eq, if_neg hne]
  obtain ⟨hw1, ho1, hsafe1⟩ := HandleRightClick_flags g q
  obtain ⟨hb1, hov1, hwin1⟩ :=
    CheckWinCondition_flags (HandleRightClick g ((q.1 : Nat) : Int) ((q.2 : Nat) : Int)).1
  generalize hg1 : (Game_Update g (rightClickOn q)).1 = g1
  have hg1b : g1.board = g.board.set ((q.1 : Nat) : Int) ((q.2 : Nat) : Int)
      { g.board.cells q.1 q.2 with flagged := !(g.board.cells q.1 q.2).flagged } := by
    rw [← hg1, Game_Update_rightClickOn g q ho hw]
    dsimp only
    rw [hb1, hR]
  have hg1o : g1.gameOver = false := by
    rw [← hg1, Game_Update_rightClickOn g q ho hw]
    dsimp only
    rw [hov1, ho1, ho]
  have hg1w : g1.win = false := by
    rw [← hg1, Game_Update_rightClickOn g q ho hw]
    dsimp only
    by_contra hcon
    rcases hwin1.1 (by simpa using hcon) with h | h
    · rw [hw1, hw] at h
      cases h
    · rw [hsafe1.count_eq] at h
      exact hcount h
  have hq1 : g1.board.cells q.1 q.2 =
      { g.board.cells q.1 q.2 with flagged := !(g.board.cells q.1 q.2).flagged } := by
    rw [hg1b, Board.set_cells_pos, if_pos rfl]
  have hp1 : g1.board.cells p.1 p.2 = g.board.cells p.1 p.2 := by
    rw [hg1b, Board.set_cells_pos, if_neg hpq]
  refine ⟨⟨by rw [hq1]; simp [hqf], by rw [hq1]; exact hqr⟩, ?_⟩
  show (_ ∧ _) ∧ _
  -- the second frame
  have hL := HandleLeftClick_zero g1 p (by rw [hp1]; exact hpf) (by rw [hp1]; exact hpr)
    (by rw [hp1]; exact hpm) (by rw [hp1]; exact hpz)
  have hb2 := (CheckWinCondition_flags
    (HandleLeftClick g1 ((p.1 : Nat) : Int) ((p.2 : Nat) : Int)).1).1
  have hg2b : (Game_Update g1 (leftClickOn p)).1.board =
      (Board_RevealEmpty (revealAt g1.board p) ((p.1 : Nat) : Int) ((p.2 : Nat) : Int)
        SoundId.sNumber).1 := by
    rw [Game_Update_leftClickOn g1 p hg1o hg1w]
    dsimp only
    rw [hb2, hL]
  have hqa : (revealAt g1.board p).cells q.1 q.2 = g1.board.cells q.1 q.2 := by
    rw [revealAt_cells, if_neg (fun h => hadj.1 h.symm)]
  obtain ⟨hrev, hflag⟩ := Board_RevealEmpty_flagged (revealAt g1.board p) ((p.1 : Nat) : Int)
    ((p.2 : Nat) : Int) SoundId.sNumber q hadj.2 (by rw [hqa, hq1]; exact hqm)
  have hprev := (Board_RevealEmpty_flagged (revealAt g1.board p) ((p.1 : Nat) : Int)
    ((p.2 : Nat) : Int) SoundId.sNumber p (NearAt_self p)
    (by rw [revealAt_cells, if_pos rfl, hp1]; exact hpm)).1
  rw [hg2b]
  refine ⟨⟨?_, hrev⟩, hprev⟩
  rw [hflag, hqa, hq1]
  simp [hqf]


theorem sampleGame_fresh : Game_Init blankGame sampleDraws = some sampleGame := rfl

theorem sampleGame_count : Board_CountRevealedSafe sampleGame.board ≠ ROWS * COLS - MINES := by
  rw [count_zero_of_hidden sampleGame.board
    (fun i j => (Game_Init_hidden blankGame sampleDraws sampleGame sampleGame_fresh i j).1)]
  decide

set_option maxRecDepth 100000 in
theorem sampleGame_layout :
    (sampleGame.board.cells eastCell.1 eastCell.2).hasMine = false ∧
      (sampleGame.board.cells centreCell.1 centreCell.2).hasMine = false ∧
      (sampleGame.board.cells centreCell.1 centreCell.2).nearbyMines = 0 := by
  decide

theorem sampleGame_filled :
    (((Game_Update sampleGame (rightClickOn eastCell)).1.board.cells
        eastCell.1 eastCell.2).flagged = true ∧
      ((Game_Update sampleGame (rightClickOn eastCell)).1.board.cells
        eastCell.1 eastCell.2).revealed = false) ∧
    (((Game_Update (Game_Update sampleGame (rightClickOn eastCell)).1
        (leftClickOn centreCell)).1.board.cells eastCell.1 eastCell.2).flagged = true ∧
      ((Game_Update (Game_Update sampleGame (rightClickOn eastCell)).1
        (leftClickOn centreCell)).1.board.cells eastCell.1 eastCell.2).revealed = true) ∧
    ((Game_Update (Game_Update sampleGame (rightClickOn eastCell)).1
        (leftClickOn centreCell)).1.board.cells centreCell.1 centreCell.2).revealed = true := by
  have hflags := Game_Init_flags blankGame sampleDraws sampleGame sampleGame_fresh
  have hhid := Game_Init_hidden blankGame sampleDraws sampleGame sampleGame_fresh
  have hadj : MooreAdj centreCell eastCell := by decide
  exact flag_then_fill sampleGame centreCell eastCell hflags.1 hflags.2.1 sampleGame_count
    hadj (hhid eastCell.1 eastCell.2).1 (hhid eastCell.1 eastCell.2).2 sampleGame_layout.1
    (hhid centreCell.1 centreCell.2).1 (hhid centreCell.1 centreCell.2).2
    sampleGame_layout.2.1 sampleGame_layout.2.2

theorem sampleGame_filled_reachable :
    Reachable (Game_Update (Game_Update sampleGame (rightClickOn eastCell)).1
      (leftClickOn centreCell)).1 :=
  Reachable.frame (Game_Update sampleGame (rightClickOn eastCell)).1 (leftClickOn centreCell)
    (Reachable.frame sampleGame (rightClickOn eastCell)
      (Reachable.init blankGame sampleDraws sampleGame sampleGame_fresh))

/-- C19. There is a freshly initialised game in which a right click on a hidden cell
without a mine, followed by a left click on a Moore-adjacent cell without a mine and
with `nearbyMines == 0`, leaves the first cell both flagged and revealed; in general
`Board_RevealEmpty` reveals every cell without a mine in the 3x3 block around its start
whether flagged or not, and changes no flag. -/
theorem C19_flood_fill_ignores_flags :
    (∃ (draws : List Nat) (g0 : Game) (p q : Pos),
      Game_Init blankGame draws = some g0 ∧ MooreAdj p q ∧
      ((g0.board.cells q.1 q.2).revealed = false ∧ (g0.board.cells q.1 q.2).flagged = false ∧
        (g0.board.cells q.1 q.2).hasMine = false) ∧
      ((g0.board.cells p.1 p.2).hasMine = false ∧ (g0.board.cells p.1 p.2).nearbyMines = 0) ∧
      ((Game_Update g0 (rightClickOn q)).1.board.cells q.1 q.2).flagged = true ∧
      ((Game_Update g0 (rightClickOn q)).1.board.cells q.1 q.2).revealed = false ∧
      ((Game_Update (Game_Update g0 (rightClickOn q)).1 (leftClickOn p)).1.board.cells
        q.1 q.2).flagged = true ∧
      ((Game_Update (Game_Update g0 (rightClickOn q)).1 (leftClickOn p)).1.board.cells
        q.1 q.2).revealed = true) ∧
    ∀ (b : Board) (row col : Int) (snd : SoundId) (q : Pos),
      NearAt row col q → (b.cells q.1 q.2).hasMine = false → (b.cells q.1 q.2).flagged = true →
        ((Board_RevealEmpty b row col snd).1.cells q.1 q.2).revealed = true ∧
        ((Board_RevealEmpty b row col snd).1.cells q.1 q.2).flagged = true := by
  constructor
  · have hhid := Game_Init_hidden blankGame sampleDraws sampleGame sampleGame_fresh
    have h := sampleGame_filled
    have hadj : MooreAdj centreCell eastCell := by decide
    exact ⟨sampleDraws, sampleGame, centreCell, eastCell, sampleGame_fresh, hadj,
      ⟨(hhid eastCell.1 eastCell.2).1, (hhid eastCell.1 eastCell.2).2, sampleGame_layout.1⟩,
      ⟨sampleGame_layout.2.1, sampleGame_layout.2.2⟩, h.1.1, h.1.2, h.2.1.1, h.2.1.2⟩
  · intro b row col snd q hn hm hf
    obtain ⟨h1, h2⟩ := Board_RevealEmpty_flagged b row col snd q hn hm
    exact ⟨h1, by rw [h2]; exact hf⟩

theorem HandleRightClick_revealed (g : Game) (q : Pos)
    (hr : (g.board.cells q.1 q.2).revealed = true) :
    HandleRightClick g ((q.1 : Nat) : Int) ((q.2 : Nat) : Int) = (g, []) ∧
      ((HandleRightClick g ((q.1 : Nat) : Int) ((q.2 : Nat) : Int)).1.board.cells q.1 q.2).flagged
        = (g.board.cells q.1 q.2).flagged := by
  have h : HandleRightClick g ((q.1 : Nat) : Int) ((q.2 : Nat) : Int) = (g, []) := by
    rw [HandleRightClick_eq, if_pos hr]
  exact ⟨h, by rw [h]⟩

/-- C11 (amended). The secondary action on a revealed in-bounds cell returns the game
state as it was, the cell's `flagged` field included, and plays no sound. -/
theorem C11_HandleRightClick_noop (g : Game) (q : Pos)
    (hr : (g.board.cells q.1 q.2).revealed = true) :
    HandleRightClick g ((q.1 : Nat) : Int) ((q.2 : Nat) : Int) = (g, []) ∧
      ((HandleRightClick g ((q.1 : Nat) : Int) ((q.2 : Nat) : Int)).1.board.cells q.1 q.2).flagged
        = (g.board.cells q.1 q.2).flagged :=
  HandleRightClick_revealed g q hr

theorem C11_HandleRightClick_noop_witness :
    ((Game_Update (Game_Update sampleGame (rightClickOn eastCell)).1
        (leftClickOn centreCell)).1.board.cells eastCell.1 eastCell.2).revealed = true ∧
      (HandleRightClick (Game_Update (Game_Update sampleGame (rightClickOn eastCell)).1
            (leftClickOn centreCell)).1 ((eastCell.1 : Nat) : Int) ((eastCell.2 : Nat) : Int)
          = ((Game_Update (Game_Update sampleGame (rightClickOn eastCell)).1
            (leftClickOn centreCell)).1, []) ∧
        ((HandleRightClick (Game_Update (Game_Update sampleGame (rightClickOn eastCell)).1
            (leftClickOn centreCell)).1 ((eastCell.1 : Nat) : Int)
            ((eastCell.2 : Nat) : Int)).1.board.cells eastCell.1 eastCell.2).flagged
          = ((Game_Update (Game_Update sampleGame (rightClickOn eastCell)).1
            (leftClickOn centreCell)).1.board.cells eastCell.1 eastCell.2).flagged) :=
  ⟨sampleGame_filled.2.1.2,
    C11_HandleRightClick_noop (Game_Update (Game_Update sampleGame (rightClickOn eastCell)).1
      (leftClickOn centreCell)).1 eastCell sampleGame_filled.2.1.2⟩

/-- C11 as stated fails where a flood fill has revealed a flagged cell: two frames into
`sampleGame` (right click on (4,5), left click on (4,4)) the cell (4,5) is revealed and
flagged, and after the secondary action on it its `flagged` field is true, not false. -/
theorem C11_counterexample :
    (Reachable (Game_Update (Game_Update sampleGame (rightClickOn eastCell)).1
        (leftClickOn centreCell)).1 ∧
      ((Game_Update (Game_Update sampleGame (rightClickOn eastCell)).1
        (leftClickOn centreCell)).1.board.cells eastCell.1 eastCell.2).revealed = true) ∧
      ¬ (HandleRightClick (Game_Update (Game_Update sampleGame (rightClickOn eastCell)).1
            (leftClickOn centreCell)).1 ((eastCell.1 : Nat) : Int) ((eastCell.2 : Nat) : Int)
          = ((Game_Update (Game_Update sampleGame (rightClickOn eastCell)).1
            (leftClickOn centreCell)).1, []) ∧
        ((HandleRightClick (Game_Update (Game_Update sampleGame (rightClickOn eastCell)).1
            (leftClickOn centreCell)).1 ((eastCell.1 : Nat) : Int)
            ((eastCell.2 : Nat) : Int)).1.board.cells eastCell.1 eastCell.2).flagged = false) := by
  refine ⟨⟨sampleGame_filled_reachable, sampleGame_filled.2.1.2⟩, ?_⟩
  rintro ⟨_, hf⟩
  rw [(HandleRightClick_revealed _ eastCell sampleGame_filled.2.1.2).2, sampleGame_filled.2.1.1] at hf
  cases hf


theorem mineClick_flagged (b : Board) (q : Pos) (i : Fin ROWS) (j : Fin COLS) :
    ((Board_RevealAllMines (revealAt b q)).cells i j).flagged = (b.cells i j).flagged := by
  rw [Board_RevealAllMines_cells, revealAt_cells]
  split <;> split <;> rfl

/-- C20. When both buttons are pressed over the same in-bounds cell, the two handlers
run on that cell and at most one of them changes the state: if the primary action
changes the state, the cell is revealed afterwards and the secondary action returns the
state unchanged and plays nothing; so a frame that hits a mine toggles no flag. -/
theorem C20_same_cell_frame (g : Game) (inp : FrameInput) (q : Pos)
    (hl : inp.leftPressed = true) (hrp : inp.rightPressed = true)
    (hx : inp.rightX = inp.leftX) (hy : inp.rightY = inp.leftY)
    (hc : GetMouseCell inp.leftX inp.leftY = some (((q.1 : Nat) : Int), ((q.2 : Nat) : Int))) :
    (leftPhase g inp = HandleLeftClick g ((q.1 : Nat) : Int) ((q.2 : Nat) : Int) ∧
      rightPhase (leftPhase g inp).1 inp
        = HandleRightClick (leftPhase g inp).1 ((q.1 : Nat) : Int) ((q.2 : Nat) : Int)) ∧
    ((leftPhase g inp).1 = g ∨
      rightPhase (leftPhase g inp).1 inp = ((leftPhase g inp).1, [])) ∧
    ((leftPhase g inp).1 ≠ g →
      ((leftPhase g inp).1.board.cells q.1 q.2).revealed = true ∧
      rightPhase (leftPhase g inp).1 inp = ((leftPhase g inp).1, [])) ∧
    (g.gameOver = false → g.win = false → (g.board.cells q.1 q.2).flagged = false →
      (g.board.cells q.1 q.2).revealed = false → (g.board.cells q.1 q.2).hasMine = true →
      (Game_Update g inp).1.gameOver = true ∧
      ∀ (i : Fin ROWS) (j : Fin COLS),
        ((Game_Update g inp).1.board.cells i j).flagged = (g.board.cells i j).flagged) := by
  have hL : leftPhase g inp = HandleLeftClick g ((q.1 : Nat) : Int) ((q.2 : Nat) : Int) := by
    unfold leftPhase
    rw [if_pos hl, hc]
  have hR : ∀ g1 : Game, rightPhase g1 inp
      = HandleRightClick g1 ((q.1 : Nat) : Int) ((q.2 : Nat) : Int) := by
    intro g1
    unfold rightPhase
    rw [if_pos hrp, hx, hy, hc]
  have hkey : (leftPhase g inp).1 ≠ g →
      ((leftPhase g inp).1.board.cells q.1 q.2).revealed = true ∧
      rightPhase (leftPhase g inp).1 inp = ((leftPhase g inp).1, []) := by
    intro hne
    by_cases hblk : (g.board.cells q.1 q.2).flagged = true ∨ (g.board.cells q.1 q.2).revealed = true
    · exact absurd (by rw [hL, HandleLeftClick_blocked g q hblk]) hne
    · have hf : (g.board.cells q.1 q.2).flagged = false := by
        simpa using fun h => hblk (Or.inl h)
      have hr : (g.board.cells q.1 q.2).revealed = false := by
        simpa using fun h => hblk (Or.inr h)
      have hrev : ((leftPhase g inp).1.board.cells q.1 q.2).revealed = true := by
        rw [hL]
        exact HandleLeftClick_reveals g q hf hr
      exact ⟨hrev, by rw [hR]; exact (HandleRightClick_revealed _ q hrev).1⟩
  refine ⟨⟨hL, hR _⟩, ?_, hkey, ?_⟩
  · by_cases hsame : (leftPhase g inp).1 = g
    · exact Or.inl hsame
    · exact Or.inr (hkey hsame).2
  · intro ho hw hf hr hm
    have hrev : ((leftPhase g inp).1.board.cells q.1 q.2).revealed = true := by
      rw [hL]
      exact HandleLeftClick_reveals g q hf hr
    have hright : rightPhase (leftPhase g inp).1 inp = ((leftPhase g inp).1, []) := by
      rw [hR]
      exact (HandleRightClick_revealed _ q hrev).1
    rw [Game_Update_active g inp ho hw]
    dsimp only
    rw [(CheckWinCondition_flags _).1, (CheckWinCondition_flags _).2.1, hright, hL,
      HandleLeftClick_mine g q hf hr hm]
    dsimp only
    exact ⟨rfl, fun i j => mineClick_flagged g.board q i j⟩

set_option maxRecDepth 100000 in
theorem C20_same_cell_frame_witness :
    ((bothClickOn cornerCell).leftPressed = true ∧ (bothClickOn cornerCell).rightPressed = true ∧
      (bothClickOn cornerCell).rightX = (bothClickOn cornerCell).leftX ∧
      (bothClickOn cornerCell).rightY = (bothClickOn cornerCell).leftY ∧
      GetMouseCell (bothClickOn cornerCell).leftX (bothClickOn cornerCell).leftY
        = some (((cornerCell.1 : Nat) : Int), ((cornerCell.2 : Nat) : Int))) ∧
    ((leftPhase sampleGame (bothClickOn cornerCell)
        = HandleLeftClick sampleGame ((cornerCell.1 : Nat) : Int) ((cornerCell.2 : Nat) : Int) ∧
      rightPhase (leftPhase sampleGame (bothClickOn cornerCell)).1 (bothClickOn cornerCell)
        = HandleRightClick (leftPhase sampleGame (bothClickOn cornerCell)).1
            ((cornerCell.1 : Nat) : Int) ((cornerCell.2 : Nat) : Int)) ∧
    ((leftPhase sampleGame (bothClickOn cornerCell)).1 = sampleGame ∨
      rightPhase (leftPhase sampleGame (bothClickOn cornerCell)).1 (bothClickOn cornerCell)
        = ((leftPhase sampleGame (bothClickOn cornerCell)).1, [])) ∧
    ((leftPhase sampleGame (bothClickOn cornerCell)).1 ≠ sampleGame →
      ((leftPhase sampleGame (bothClickOn cornerCell)).1.board.cells
        cornerCell.1 cornerCell.2).revealed = true ∧
      rightPhase (leftPhase sampleGame (bothClickOn cornerCell)).1 (bothClickOn cornerCell)
        = ((leftPhase sampleGame (bothClickOn cornerCell)).1, [])) ∧
    (sampleGame.gameOver = false → sampleGame.win = false →
      (sampleGame.board.cells cornerCell.1 cornerCell.2).flagged = false →
      (sampleGame.board.cells cornerCell.1 cornerCell.2).revealed = false →
      (sampleGame.board.cells cornerCell.1 cornerCell.2).hasMine = true →
      (Game_Update sampleGame (bothClickOn cornerCell)).1.gameOver = true ∧
      ∀ (i : Fin ROWS) (j : Fin COLS),
        ((Game_Update sampleGame (bothClickOn cornerCell)).1.board.cells i j).flagged
          = (sampleGame.board.cells i j).flagged)) :=
  ⟨⟨rfl, rfl, rfl, rfl, rfl⟩,
    C20_same_cell_frame sampleGame (bothClickOn cornerCell) cornerCell rfl rfl rfl rfl rfl⟩

theorem C12_double_toggle_witness :
    (centreBoard.cells centreCell.1 centreCell.2).revealed = false ∧
      ((HandleRightClick (HandleRightClick blankGame ((centreCell.1 : Nat) : Int)
          ((centreCell.2 : Nat) : Int)).1
          ((centreCell.1 : Nat) : Int) ((centreCell.2 : Nat) : Int)).1 = blankGame ∧
        HandleRightClick blankGame ((centreCell.1 : Nat) : Int) ((centreCell.2 : Nat) : Int) =
          ({ blankGame with
              board := (blankGame.board.set ((centreCell.1 : Nat) : Int) ((centreCell.2 : Nat) : Int)
                { blankGame.board.cells centreCell.1 centreCell.2 with
                  flagged := !(blankGame.board.cells centreCell.1 centreCell.2).flagged }) },
            [SoundId.sFlag]) ∧
        ∀ (i : Fin ROWS) (j : Fin COLS),
          ((HandleRightClick blankGame ((centreCell.1 : Nat) : Int)
              ((centreCell.2 : Nat) : Int)).1.board.cells i j)
            = if (i, j) = centreCell then
                { blankGame.board.cells i j with flagged := !(blankGame.board.cells i j).flagged }
              else blankGame.board.cells i j) :=
  ⟨rfl, C12_double_toggle blankGame centreCell rfl⟩

theorem C16_revealed_terminal_witness :
    (tenMineGame.board.cells 5 5).revealed = true ∧
      ((Game_Update tenMineGame (leftClickOn cornerCell)).1.board.cells 5 5).revealed = true :=
  ⟨rfl, C16_revealed_terminal tenMineGame (leftClickOn cornerCell) 5 5 rfl⟩

theorem C17_layout_immutable_witness :
    Reachable sampleGame ∧
      ((∀ (inp : FrameInput) (i : Fin ROWS) (j : Fin COLS),
          ((Game_Update sampleGame inp).1.board.cells i j).hasMine
            = (sampleGame.board.cells i j).hasMine ∧
          ((Game_Update sampleGame inp).1.board.cells i j).nearbyMines
            = (sampleGame.board.cells i j).nearbyMines) ∧
        (Reachable sampleGame →
          (mineSet sampleGame.board).card = MINES ∧
          ∀ (i : Fin ROWS) (j : Fin COLS), (sampleGame.board.cells i j).hasMine = false →
            (sampleGame.board.cells i j).nearbyMines
              = (mineNeighbours sampleGame.board (i, j) : Int))) :=
  ⟨Reachable.init blankGame sampleDraws sampleGame rfl, C17_layout_immutable sampleGame⟩

theorem sampleGame_filled_centre :
    ((Game_Update (Game_Update sampleGame (rightClickOn eastCell)).1
        (leftClickOn centreCell)).1.board.cells centreCell.1 centreCell.2).hasMine = false ∧
      ((Game_Update (Game_Update sampleGame (rightClickOn eastCell)).1
        (leftClickOn centreCell)).1.board.cells centreCell.1 centreCell.2).nearbyMines = 0 := by
  have h1 := Game_Update_keeps sampleGame (rightClickOn eastCell)
  have h2 := Game_Update_keeps (Game_Update sampleGame (rightClickOn eastCell)).1
    (leftClickOn centreCell)
  exact ⟨by rw [h2.hasMine, h1.hasMine]; exact sampleGame_layout.2.1,
    by rw [h2.nearby, h1.nearby]; exact sampleGame_layout.2.2⟩

theorem centre_east_adjacent : MooreAdj centreCell eastCell := by
  decide

theorem C18_closure_invariant_witness :
    (Reachable (Game_Update (Game_Update sampleGame (rightClickOn eastCell)).1
        (leftClickOn centreCell)).1 ∧
      ((Game_Update (Game_Update sampleGame (rightClickOn eastCell)).1
        (leftClickOn centreCell)).1.board.cells centreCell.1 centreCell.2).revealed = true ∧
      ((Game_Update (Game_Update sampleGame (rightClickOn eastCell)).1
        (leftClickOn centreCell)).1.board.cells centreCell.1 centreCell.2).hasMine = false ∧
      ((Game_Update (Game_Update sampleGame (rightClickOn eastCell)).1
        (leftClickOn centreCell)).1.board.cells centreCell.1 centreCell.2).nearbyMines = 0 ∧
      MooreAdj centreCell eastCell) ∧
    ((Game_Update (Game_Update sampleGame (rightClickOn eastCell)).1
        (leftClickOn centreCell)).1.board.cells eastCell.1 eastCell.2).revealed = true :=
  ⟨⟨sampleGame_filled_reachable, sampleGame_filled.2.2, sampleGame_filled_centre.1,
      sampleGame_filled_centre.2, centre_east_adjacent⟩,
    C18_closure_invariant (Game_Update (Game_Update sampleGame (rightClickOn eastCell)).1
        (leftClickOn centreCell)).1 sampleGame_filled_reachable centreCell eastCell
      sampleGame_filled.2.2 sampleGame_filled_centre.1 sampleGame_filled_centre.2
      centre_east_adjacent⟩

/-! ## Termination of the flood fill -/

theorem TraceInv_mono {b1 b2 : Board} (h : RevealedMono b1 b2) {tr : List (Int × Int)}
    (ht : TraceInv b1 tr) : TraceInv b2 tr := by
  refine ⟨ht.1, fun e he => ?_⟩
  obtain ⟨q, h1, h2, h3⟩ := ht.2 e he
  exact ⟨q, h1, h2, h _ _ h3⟩

theorem revealStepT_erase (recT : TraceState → Int → Int → Option TraceState)
    (rec0 : FillState → Int → Int → Option FillState)
    (hrec : ∀ t r c, (recT t r c).map Prod.fst = rec0 t.1 r c)
    (snd : SoundId) (row col : Int) (t : TraceState) (d : Int × Int) :
    (revealStepT recT snd row col t d).map Prod.fst = revealStep rec0 snd row col t.1 d := by
  unfold revealStepT revealStep
  dsimp only
  split_ifs <;> first | rfl | exact hrec _ _ _

theorem foldlM_erase {σ τ α : Type} (f : σ → α → Option σ) (g : τ → α → Option τ) (π : σ → τ)
    (hfg : ∀ s a, (f s a).map π = g (π s) a) (l : List α) (s : σ) :
    (l.foldlM f s).map π = l.foldlM g (π s) := by
  induction l generalizing s with
  | nil => rfl
  | cons a l ih =>
    rw [List.foldlM_cons, List.foldlM_cons, ← hfg s a]
    cases f s a with
    | none => rfl
    | some s1 => exact ih s1

/-- Forgetting the ghost record gives back `RevealEmptyFuel`. -/
theorem RevealEmptyTrace_erase (n : Nat) (snd : SoundId) (t : TraceState) (row col : Int) :
    (RevealEmptyTrace n snd t row col).map Prod.fst = RevealEmptyFuel n snd t.1 row col := by
  induction n generalizing t row col with
  | zero => rfl
  | succ n ih =>
    rw [RevealEmptyTrace, RevealEmptyFuel]
    exact foldlM_erase _ _ Prod.fst
      (fun s a => revealStepT_erase _ _ (fun t r c => ih t r c) snd row col s a) offsets t

theorem revealStepT_inv (recT : TraceState → Int → Int → Option TraceState) (snd : SoundId)
    (hrec : ∀ t r c t2, recT t r c = some t2 → TraceInv t.1.1 t.2 →
      TraceInv t2.1.1 t2.2 ∧ RevealedMono t.1.1 t2.1.1)
    (row col : Int) (t : TraceState) (d : Int × Int) (t2 : TraceState)
    (h : revealStepT recT snd row col t d = some t2) (ht : TraceInv t.1.1 t.2) :
    TraceInv t2.1.1 t2.2 ∧ RevealedMono t.1.1 t2.1.1 := by
  unfold revealStepT at h
  dsimp only at h
  by_cases hv : IsValidCell (row + d.1) (col + d.2) = true
  swap
  · rw [if_pos (by simp [hv])] at h
    cases h
    exact ⟨ht, fun _ _ hh => hh⟩
  obtain ⟨i, j, hi, hj⟩ := (IsValidCell_iff _ _).1 hv
  rw [if_neg (by simp [hv]), ← hi, ← hj, Board.get_coe] at h
  by_cases hr : (t.1.1.cells i j).revealed = true
  · rw [if_pos hr] at h
    cases h
    exact ⟨ht, fun _ _ hh => hh⟩
  rw [if_neg hr] at h
  by_cases hm : (t.1.1.cells i j).hasMine = true
  · rw [if_pos hm] at h
    cases h
    exact ⟨ht, fun _ _ hh => hh⟩
  rw [if_neg hm] at h
  have hmono : RevealedMono t.1.1 (t.1.1.set ((i : Nat) : Int) ((j : Nat) : Int)
      { t.1.1.cells i j with revealed := true }) := by
    intro a b hab
    rw [Board.set_cells_pos (q := (i, j))]
    split
    · rfl
    · exact hab
  have hat : ((t.1.1.set ((i : Nat) : Int) ((j : Nat) : Int)
      { t.1.1.cells i j with revealed := true }).cells i j).revealed = true := by
    rw [Board.set_cells_pos (q := (i, j)), if_pos rfl]
  split at h
  · have hinv : TraceInv (t.1.1.set ((i : Nat) : Int) ((j : Nat) : Int)
        { t.1.1.cells i j with revealed := true })
        (t.2 ++ [(((i : Nat) : Int), ((j : Nat) : Int))]) := by
      constructor
      · rw [List.nodup_append]
        refine ⟨ht.1, List.nodup_singleton _, ?_⟩
        intro e he he2
        rw [List.mem_singleton] at he2
        subst he2
        obtain ⟨q, h1, h2, h3⟩ := ht.2 _ he
        have hq : q = (i, j) := by
          apply Prod.ext <;> apply Fin.ext <;> simp only at h1 h2 ⊢ <;> omega
        rw [hq] at h3
        exact hr h3
      · intro e he
        rcases List.mem_append.1 he with he | he
        · obtain ⟨q, h1, h2, h3⟩ := ht.2 e he
          exact ⟨q, h1, h2, hmono _ _ h3⟩
        · rw [List.mem_singleton] at he
          subst he
          exact ⟨(i, j), rfl, rfl, hat⟩
    obtain ⟨hinv2, hmono2⟩ := hrec _ _ _ _ h hinv
    exact ⟨hinv2, fun a b hab => hmono2 a b (hmono a b hab)⟩
  · cases h
    exact ⟨TraceInv_mono hmono ht, hmono⟩

theorem RevealEmptyTrace_inv (n : Nat) (snd : SoundId) (t : TraceState) (row col : Int)
    (t2 : TraceState) (h : RevealEmptyTrace n snd t row col = some t2)
    (ht : TraceInv t.1.1 t.2) : TraceInv t2.1.1 t2.2 ∧ RevealedMono t.1.1 t2.1.1 := by
  induction n generalizing t row col t2 with
  | zero => cases h
  | succ n ih =>
    rw [RevealEmptyTrace] at h
    have hloop : ∀ (l : List (Int × Int)) (t t2 : TraceState),
        l.foldlM (revealStepT (RevealEmptyTrace n snd) snd row col) t = some t2 →
        TraceInv t.1.1 t.2 → TraceInv t2.1.1 t2.2 ∧ RevealedMono t.1.1 t2.1.1 := by
      intro l
      induction l with
      | nil =>
        intro t t2 h ht
        cases h
        exact ⟨ht, fun _ _ hh => hh⟩
      | cons d l ihl =>
        intro t t2 h ht
        rw [List.foldlM_cons] at h
        cases hstep : revealStepT (RevealEmptyTrace n snd) snd row col t d with
        | none => rw [hstep] at h; cases h
        | some t1 =>
          rw [hstep] at h
          obtain ⟨hinv1, hmono1⟩ := revealStepT_inv _ snd
            (fun t r c t2 h ht => ih t r c t2 h ht) row col t d t1 hstep ht
          obtain ⟨hinv2, hmono2⟩ := ihl t1 t2 h hinv1
          exact ⟨hinv2, fun a b hab => hmono2 a b (hmono1 a b hab)⟩
    exact hloop offsets t t2 h ht

/-- The loop body consults `recurse` only on boards with strictly fewer hidden
mine-free cells than the board it started from. -/
theorem revealStep_congr (rec1 rec2 : FillState → Int → Int → Option FillState) (snd : SoundId)
    (row col : Int) (s : FillState) (d : Int × Int)
    (h : ∀ (s1 : FillState) (r c : Int), (hiddenSafeSet s1.1).card < (hiddenSafeSet s.1).card →
      rec1 s1 r c = rec2 s1 r c) :
    revealStep rec1 snd row col s d = revealStep rec2 snd row col s d := by
  unfold revealStep
  dsimp only
  split_ifs with hv hr hm hz
  · rfl
  · rfl
  · rfl
  · apply h
    dsimp only
    have hv2 : IsValidCell (row + d.1) (col + d.2) = true := by simpa using hv
    obtain ⟨i, j, hi, hj⟩ := (IsValidCell_iff _ _).1 hv2
    rw [← hi, ← hj, Board.get_coe] at hr hm ⊢
    have hlt := reveal_hidden_lt s.1 (i, j) (by simpa using hm) (by simpa using hr)
    dsimp only at hlt
    rw [Board.get_coe] at hlt
    exact hlt
  · rfl

/-- Every recursive call that the loop body makes is made on a board with strictly
fewer hidden mine-free cells than the board the body started from. -/
theorem revealStep_guarded (recurse : FillState → Int → Int → Option FillState) (snd : SoundId)
    (row col : Int) (s : FillState) (d : Int × Int) :
    revealStep recurse snd row col s d =
      revealStep
        (fun s1 r c =>
          if (hiddenSafeSet s1.1).card < (hiddenSafeSet s.1).card then recurse s1 r c else none)
        snd row col s d := by
  apply revealStep_congr
  intro s1 r c hlt
  rw [if_pos hlt]

/-- C14. `Board_RevealEmpty` terminates on every board and every start coordinate: any
fuel above the number of hidden mine-free cells makes the bounded recursion return
its result; each recursive call is made on a board with strictly fewer hidden mine-free
cells than the board the loop body started from; and the recursive calls of one run go
to pairwise distinct cells. -/
theorem C14_RevealEmpty_terminates (b : Board) (row col : Int) (snd : SoundId) :
    (∀ fuel : Nat, (hiddenSafeSet b).card < fuel →
        RevealEmptyFuel fuel snd (b, []) row col = some (Board_RevealEmpty b row col snd)) ∧
      (∀ (recurse : FillState → Int → Int → Option FillState) (s : FillState) (r c : Int)
          (d : Int × Int),
        revealStep recurse snd r c s d =
          revealStep
            (fun s1 r1 c1 =>
              if (hiddenSafeSet s1.1).card < (hiddenSafeSet s.1).card then recurse s1 r1 c1
              else none)
            snd r c s d) ∧
      (∀ fuel : Nat, (hiddenSafeSet b).card < fuel →
        ∃ tr : List (Int × Int),
          RevealEmptyTrace fuel snd ((b, []), []) row col
            = some (Board_RevealEmpty b row col snd, tr) ∧ tr.Nodup) := by
  have hterm : ∀ fuel : Nat, (hiddenSafeSet b).card < fuel →
      RevealEmptyFuel fuel snd (b, []) row col = some (Board_RevealEmpty b row col snd) := by
    intro fuel hf
    obtain ⟨s2, h2, _⟩ := RevealEmptyFuel_spec fuel snd (b, []) row col hf
    rcases Nat.le_total fuel (ROWS * COLS + 1) with hle | hle
    · have h82 := RevealEmptyFuel_le fuel (ROWS * COLS + 1) hle snd (b, []) row col s2 h2
      rw [RevealEmptyFuel_enough (ROWS * COLS + 1) (Nat.lt_succ_self _) snd b row col] at h82
      rw [h2, h82]
    · exact RevealEmptyFuel_enough fuel (by omega) snd b row col
  refine ⟨hterm, fun recurse s r c d => revealStep_guarded recurse snd r c s d, ?_⟩
  intro fuel hf
  have herase := RevealEmptyTrace_erase fuel snd ((b, []), []) row col
  rw [hterm fuel hf] at herase
  cases ht : RevealEmptyTrace fuel snd ((b, []), []) row col with
  | none => rw [ht] at herase; cases herase
  | some t2 =>
    rw [ht] at herase
    simp only [Option.map_some', Option.some.injEq] at herase
    obtain ⟨hinv, _⟩ := RevealEmptyTrace_inv fuel snd ((b, []), []) row col t2 ht
      ⟨List.nodup_nil, fun e he => absurd he (List.not_mem_nil e)⟩
    refine ⟨t2.2, ?_, hinv.1⟩
    rw [← herase]

end Minesweeper
